import Mathlib

/-!
# Verification of `bin/update_project_manifest.py`

A shallow embedding of the manifest-generation tool: a JSON value model, the
manual metadata validator, the repository tree scanner, the conflict resolver
and the manifest writer, together with theorems checking the specification's
claims against this embedding.

Python strings compare lexicographically by Unicode code point, and
`sorted` is modelled by an insertion sort (any stable sort produces the same
output).  Python dictionaries parsed from JSON are modelled as association
lists with distinct keys in insertion order.
-/

namespace UpdateManifest

/-! ## Lexicographic string order (Python `<=` on `str`) -/

/-- Lexicographic `≤` on character lists, comparing Unicode code points
exactly as Python compares strings. -/
def listStrLe : List Char → List Char → Bool
  | [], _ => true
  | _ :: _, [] => false
  | a :: as, b :: bs =>
    if a.toNat < b.toNat then true
    else if b.toNat < a.toNat then false
    else listStrLe as bs

/-- Python string `<=`. -/
def strLe (a b : String) : Bool := listStrLe a.toList b.toList

/-- Python string `<` (strict). -/
def strLt (a b : String) : Bool := strLe a b && !(a == b)

/-! ## Insertion sort (model of Python `sorted`, any stable sort agrees) -/

/-- Insert an element into a sorted list (leftmost position compatible with
`le`), as used by insertion sort. -/
def insSorted {α : Type} (le : α → α → Bool) (x : α) : List α → List α
  | [] => [x]
  | y :: ys => if le x y then x :: y :: ys else y :: insSorted le x ys

/-- Insertion sort with a boolean comparison; stable, hence it models Python
`sorted` exactly whenever comparisons on the relevant keys are total. -/
def insSort {α : Type} (le : α → α → Bool) : List α → List α
  | [] => []
  | x :: xs => insSorted le x (insSort le xs)

/-! ## JSON values

Parsed JSON documents (`json.loads` results).  Objects are association lists
in document order; `json.loads` produces dictionaries, so object keys are
distinct.  Numbers are modelled as integers (no claim involves floats). -/

inductive Json where
  | null
  | bool (b : Bool)
  | num (n : Int)
  | str (s : String)
  | arr (elems : List Json)
  | obj (fields : List (String × Json))

/-- Key lookup in a JSON object (`data.get(k)` / `data[k]`); `none` on
non-objects or missing keys. -/
def Json.getField : Json → String → Option Json
  | .obj fields, k => (fields.find? (fun p => p.1 == k)).map (·.2)
  | _, _ => none

/-- `k in data` for a dict. -/
def hasKey (fields : List (String × Json)) (k : String) : Bool :=
  (fields.find? (fun p => p.1 == k)).isSome

/-- `data.get(k)` for a dict. -/
def getKey (fields : List (String × Json)) (k : String) : Option Json :=
  (fields.find? (fun p => p.1 == k)).map (·.2)

/-- `isinstance(x, str)`. -/
def Json.isStr : Json → Bool
  | .str _ => true
  | _ => false

/-! ## The identifier pattern `ID_RE = ^[a-z0-9][a-z0-9-_]{1,64}$` -/

/-- First character class `[a-z0-9]`. -/
def isIdStart (c : Char) : Bool :=
  (97 ≤ c.toNat && c.toNat ≤ 122) || (48 ≤ c.toNat && c.toNat ≤ 57)

/-- Continuation character class `[a-z0-9-_]`. -/
def isIdCont (c : Char) : Bool :=
  isIdStart c || c == '-' || c == '_'

/-- Strict formal-language semantics of the pattern
`^[a-z0-9][a-z0-9-_]\x7b1,64\x7d$`: one start character followed by 1 to 64
continuation characters, nothing else.  Total length 2 to 65. -/
def idRegexMatch (s : String) : Bool :=
  match s.toList with
  | [] => false
  | c :: rest =>
    isIdStart c && decide (1 ≤ rest.length) && decide (rest.length ≤ 64)
      && rest.all isIdCont

/-- `ID_RE.match(s)` truthiness with Python `re` semantics: an unanchored-at-
the-right `$` also matches just before a single newline at the very end of
the string, so `"a0\n"` matches even though it is not in the pattern's
formal language. -/
def ID_RE_match (s : String) : Bool :=
  idRegexMatch s ||
    (match s.toList.getLast? with
     | some c => c == '\n' && idRegexMatch (String.mk s.toList.dropLast)
     | none => false)

/-! ## Manual validator (`validate_metadata_manual`, lines 57-93) -/

/-- The allowed field set (line 88). -/
def ALLOWED_FIELDS : List String :=
  ["id", "title", "one_liner", "tags", "stack", "entrypoints"]

/-- Python `repr` of a plain string (one containing no quotes, backslashes or
control characters), as embedded by the f-string for `sorted(extras)`. -/
def pyStrRepr (s : String) : String :=
  String.singleton (Char.ofNat 39) ++ s ++ String.singleton (Char.ofNat 39)

/-- Python `repr` of a list of plain strings. -/
def pyStrListRepr (xs : List String) : String :=
  "[" ++ String.intercalate ", " (xs.map pyStrRepr) ++ "]"

/-- The message of line 65 citing the identifier pattern. -/
def idPatternMsg : String :=
  "id must match pattern ^[a-z0-9][a-z0-9-_]\x7b1,64\x7d$"

/-- Lines 88-91: names outside the allowed set, in document order, then
sorted; the violation message lists them all. -/
def unexpectedFieldsCheck (data : List (String × Json)) : Option String :=
  let extras := (data.map Prod.fst).filter (fun k => !(ALLOWED_FIELDS.contains k))
  if extras.isEmpty then none
  else some ("unexpected fields: " ++ pyStrListRepr (insSort strLe extras))

/-- Line 73: `title`, if present, must be a string. -/
def titleBad (data : List (String × Json)) : Bool :=
  match getKey data "title" with
  | none => false
  | some (.str _) => false
  | some _ => true

/-- Lines 76-79: `tags`/`stack`, if present, must be arrays of strings. -/
def strListBad (data : List (String × Json)) (k : String) : Bool :=
  match getKey data k with
  | none => false
  | some (.arr xs) => !(xs.all Json.isStr)
  | some _ => true

/-- `validate_metadata_manual` on a dict: returns `none` on success or the
first violation's message (fail-fast, checks in source order). -/
def validate_metadata_manual (data : List (String × Json)) : Option String :=
  if !hasKey data "id" then some "missing required field: id"
  else if !hasKey data "one_liner" then some "missing required field: one_liner"
  else match getKey data "id" with
  | some (.str idv) =>
    if !ID_RE_match idv then some idPatternMsg
    else match getKey data "one_liner" with
    | some (.str ol) =>
      if 120 < ol.length then some "one_liner exceeds 120 chars"
      else if titleBad data then some "title must be string"
      else if strListBad data "tags" then some "tags must be array of strings"
      else if strListBad data "stack" then some "stack must be array of strings"
      else match getKey data "entrypoints" with
      | some (.obj eps) =>
        if eps.all (fun p => p.2.isStr) then unexpectedFieldsCheck data
        else some "entrypoints keys and values must be strings"
      | some _ => some "entrypoints must be object"
      | none => unexpectedFieldsCheck data
    | _ => some "one_liner must be string"
  | _ => some "id must be string"

/-! ## The validator applied to arbitrary JSON values -/

/-- Does `s` start with `p`? -/
def listStarts : List Char → List Char → Bool
  | [], _ => true
  | _ :: _, [] => false
  | a :: as, b :: bs => a == b && listStarts as bs

/-- Python substring test `p in s`. -/
def listContainsSub (p s : List Char) : Bool :=
  match s with
  | [] => p.isEmpty
  | _ :: rest => listStarts p s || listContainsSub p rest

/-- Python `key in data` for an arbitrary JSON value: key lookup for dicts,
element equality for lists, substring test for strings; for numbers,
booleans and `None` Python raises `TypeError` (modelled as `.error`). -/
def pyContains (data : Json) (key : String) : Except String Bool :=
  match data with
  | .obj fields => .ok (hasKey fields key)
  | .arr xs =>
    .ok (xs.any (fun x => match x with | .str s => s == key | _ => false))
  | .str s => .ok (listContainsSub key.toList s.toList)
  | _ => .error "TypeError: argument of type is not iterable"

/-- `validate_metadata_manual` as invoked by the scanner, on the raw result
of `json.loads`.  The Python signature promises a dict but `json.loads` may
return any value; for non-dicts `key not in data` raises `TypeError` on
numbers/booleans/`None`, and once the required-field membership tests pass,
`data.get("id")` raises `AttributeError` on lists and strings.  `.error`
models such an uncaught exception, which terminates the whole process. -/
def validate_metadata_manual_any (data : Json) : Except String (Option String) :=
  match data with
  | .obj fields => .ok (validate_metadata_manual fields)
  | _ => do
    let hasId ← pyContains data "id"
    if !hasId then return (some "missing required field: id")
    let hasOne ← pyContains data "one_liner"
    if !hasOne then return (some "missing required field: one_liner")
    .error "AttributeError: object has no attribute get"

/-- `validate_metadata_schema` in an environment where the optional
`jsonschema` engine is unavailable: the deliberate degrade-gracefully policy
(lines 97-100) falls back to the manual rule set.  All claims under check
concern the manual rules. -/
def validate_metadata_schema (data : Json) : Except String (Option String) :=
  validate_metadata_manual_any data

/-! ## Data model: entries, warnings, conflicts, the filesystem -/

/-- Manifest Entry (lines 146-156): scan-time facts plus optional fields
copied through verbatim (absent optional keys are omitted). -/
structure Entry where
  id : String
  path : String
  one_liner : String
  source_metadata : String
  source_mtime : Int
  title : Option Json
  tags : Option Json
  stack : Option Json
  entrypoints : Option Json

/-- Warning Record (lines 38-41). -/
structure WarningItem where
  path : String
  message : String
deriving DecidableEq

/-- Conflict Record (lines 173-176). -/
structure ConflictRecord where
  id : String
  paths : List String
deriving DecidableEq

/-- Parse outcome of a file's bytes: not well-formed JSON (carrying the
exception detail) or a parsed value. -/
inductive FileContent where
  | malformed (detail : String)
  | json (value : Json)

/-- A file in a directory: name, contents, integer mtime. -/
structure FileEntry where
  name : String
  content : FileContent
  mtime : Int

/-- A directory tree: plain files and named subdirectories, children listed
in filesystem traversal order. -/
inductive FSTree where
  | dir : List FileEntry → List (String × FSTree) → FSTree

/-- Abnormal termination of a run: `systemExit` models the strict-mode
`raise SystemExit(err)`; `pyError` an uncaught exception escaping the
validator.  Both yield process exit code 1 with no manifest written. -/
inductive ScanAbort where
  | systemExit (msg : String)
  | pyError (msg : String)
deriving DecidableEq

/-! ## Loader and scanner (`load_json`, `is_repo_root`, `scan_projects`) -/

/-- `load_json` (lines 48-54): a missing file reports `missing: <path>`,
unparseable content `invalid json: <detail>`. -/
def load_json (file : Option FileContent) (path : String) : Except String Json :=
  match file with
  | none => .error ("missing: " ++ path)
  | some (.malformed d) => .error ("invalid json: " ++ d)
  | some (.json v) => .ok v

/-- The fixed denylist (lines 20-33). -/
def SKIP_DIRS : List String :=
  [".git", ".codex", "node_modules", ".venv", "venv", "target", "dist",
   "build", ".tox", ".pytest_cache", ".mypy_cache", ".cache"]

/-- `is_repo_root` (lines 112-117): a `.git` entry among the direct children
(directory or file) marks a repository root. -/
def is_repo_root (dirnames : List String) (filenames : List String) : Bool :=
  if dirnames.contains ".git" then true
  else if filenames.contains ".git" then true
  else false

/-- The fixed metadata file name. -/
def metadataFileName : String := "project.metadata.json"

/-- Find a direct child file by name (`metadata_path.exists()`). -/
def lookupFile (files : List FileEntry) (n : String) : Option FileEntry :=
  files.find? (fun f => f.name == n)

/-- String value of a field of a validated document; validation guarantees
the `id` and `one_liner` fields are strings, so the default is unreachable
on the scanner's calls. -/
def jsonFieldStr (data : Json) (k : String) : String :=
  match data.getField k with
  | some (.str s) => s
  | _ => ""

/-- Lines 146-156: construct a manifest entry from a validated document. -/
def mkEntry (data : Json) (curPath : String) (mtime : Int) : Entry :=
  { id := jsonFieldStr data "id"
    path := curPath
    one_liner := jsonFieldStr data "one_liner"
    source_metadata := metadataFileName
    source_mtime := mtime
    title := data.getField "title"
    tags := data.getField "tags"
    stack := data.getField "stack"
    entrypoints := data.getField "entrypoints" }

/-- Lines 131-158: handling of a recognized repository root's metadata file.
The presence check (`metadata_path.exists()`) happens before `load_json`, so
the loader's missing-file reason is never produced here; a load or
validation failure records a warning, or aborts the whole scan in strict
mode; a validated document yields one entry. -/
def processRepo (strict : Bool) (curPath : String) (files : List FileEntry) :
    Except ScanAbort (List Entry × List WarningItem) :=
  match lookupFile files metadataFileName with
  | none => .ok ([], [])
  | some f =>
    let mpath := curPath ++ "/" ++ metadataFileName
    match load_json (some f.content) mpath with
    | .error err =>
      if strict then .error (.systemExit err) else .ok ([], [⟨mpath, err⟩])
    | .ok data =>
      match validate_metadata_schema data with
      | .error exc => .error (.pyError exc)
      | .ok (some verr) =>
        if strict then .error (.systemExit verr) else .ok ([], [⟨mpath, verr⟩])
      | .ok none => .ok ([mkEntry data curPath f.mtime], [])

mutual

/-- `scan_projects` (lines 120-160) as a recursion over the tree:
`os.walk(root, topdown=True)` visits the current directory first, detects
repository-root status from the unpruned children, prunes `SKIP_DIRS`
children, empties the child list beneath a repository root, and recurses
into the surviving children in order.  The `visit` predicate of
`scanChildren` captures the pruned child list. -/
def scanDir (strict : Bool) (curPath : String) :
    FSTree → Except ScanAbort (List Entry × List WarningItem)
  | .dir files subs =>
    let hasRepo := is_repo_root (subs.map Prod.fst) (files.map FileEntry.name)
    match (if hasRepo then processRepo strict curPath files else .ok ([], [])) with
    | .error e => .error e
    | .ok (les, lws) =>
      match scanChildren strict curPath
          (fun n => !hasRepo && !SKIP_DIRS.contains n) subs with
      | .error e => .error e
      | .ok (ces, cws) => .ok (les ++ ces, lws ++ cws)

/-- Walk the surviving children in order, concatenating entries and
warnings; the first abort propagates. -/
def scanChildren (strict : Bool) (curPath : String) (visit : String → Bool) :
    List (String × FSTree) → Except ScanAbort (List Entry × List WarningItem)
  | [] => .ok ([], [])
  | (n, t) :: rest =>
    if visit n then
      match scanDir strict (curPath ++ "/" ++ n) t with
      | .error e => .error e
      | .ok (es, ws) =>
        match scanChildren strict curPath visit rest with
        | .error e => .error e
        | .ok (res, rws) => .ok (es ++ res, ws ++ rws)
    else scanChildren strict curPath visit rest

end

/-! ## Conflict resolver (`resolve_conflicts`, lines 163-180) -/

/-- One grouping step:
`by_id.setdefault(entry["id"], []).append(entry)` — append to the existing
group, or add a new group at the end of the dict's key order. -/
def insertById : List (String × List Entry) → Entry → List (String × List Entry)
  | [], e => [(e.id, [e])]
  | (k, es) :: rest, e =>
    if k = e.id then (k, es ++ [e]) :: rest else (k, es) :: insertById rest e

/-- Entries grouped by id, groups in first-occurrence order. -/
def groupById (entries : List Entry) : List (String × List Entry) :=
  entries.foldl insertById []

/-- `key=lambda e: e["path"]`. -/
def pathLe (a b : Entry) : Bool := strLe a.path b.path

/-- `key=lambda e: (e["id"], e["path"])` — Python tuple comparison. -/
def idPathLe (a b : Entry) : Bool :=
  if a.id = b.id then strLe a.path b.path else strLe a.id b.id

/-- `key=lambda c: c["id"]`. -/
def conflictIdLe (a b : ConflictRecord) : Bool := strLe a.id b.id

/-- `resolve_conflicts`: sort by path, group by id, keep each group's first
member, emit a conflict record for every group with two or more members,
then sort `kept` by `(id, path)` and `conflicts` by `id`. -/
def resolve_conflicts (entries : List Entry) :
    List Entry × List ConflictRecord :=
  let groups := groupById (insSort pathLe entries)
  let kept := groups.filterMap (fun g => g.2.head?)
  let conflicts := groups.filterMap (fun g =>
    if 1 < g.2.length then some (ConflictRecord.mk g.1 (g.2.map Entry.path))
    else none)
  (insSort idPathLe kept, insSort conflictIdLe conflicts)

/-! ## Manifest writer and `main` -/

/-- The persisted manifest value.  `json.dumps(..., indent=2,
sort_keys=True)` plus the trailing newline is a pure function of this value,
so two runs produce byte-identical files exactly when these values agree. -/
structure Manifest where
  version : String
  root : String
  generated_at : String
  projects : List Entry
  conflicts : Option (List ConflictRecord)

/-- `write_manifest` (lines 183-194): the `conflicts` key is present only
when the list is non-empty; `generated_at` (`now_iso()`) is a parameter. -/
def write_manifest (root : String) (generated_at : String)
    (entries : List Entry) (conflicts : List ConflictRecord) : Manifest :=
  { version := "1.0"
    root := root
    generated_at := generated_at
    projects := entries
    conflicts := if conflicts.isEmpty then none else some conflicts }

/-- Outcome of one invocation: an abort carries no manifest (the writer was
never reached); completion carries the written manifest, the stderr warning
lines, and the return value of `main`. -/
inductive RunResult where
  | aborted (e : ScanAbort)
  | completed (manifest : Manifest) (diagnostics : List WarningItem) (exit : Nat)

/-- `main` (lines 197-217): scan, resolve, write, report warnings on the
diagnostic stream, return 0; a strict-mode `SystemExit` or an uncaught
exception aborts before `write_manifest` is reached. -/
def runMain (strict : Bool) (rootPath : String) (t : FSTree) (ts : String) :
    RunResult :=
  match scanDir strict rootPath t with
  | .error e => .aborted e
  | .ok (entries, warnings) =>
    let r := resolve_conflicts entries
    .completed (write_manifest rootPath ts r.1 r.2) warnings 0

/-- Process exit code: `raise SystemExit(main())` exits 0 on normal
completion; `SystemExit(err)` with a string message and uncaught exceptions
exit 1. -/
def exitCode : RunResult → Nat
  | .aborted _ => 1
  | .completed _ _ c => c

/-! ## Concrete fixtures used by the claims' test vectors -/

/-- The specification's unexpected-field example `{"id":"a","one_liner":"x","foo":1}`. -/
def exDocFoo : List (String × Json) :=
  [("id", .str "a"), ("one_liner", .str "x"), ("foo", .num 1)]

/-- The unexpected-field example with a pattern-valid id. -/
def exDocFoo2 : List (String × Json) :=
  [("id", .str "aa"), ("one_liner", .str "x"), ("foo", .num 1)]

/-- A document whose id carries a single trailing newline. -/
def exDocNewline : List (String × Json) :=
  [("id", .str "a0\n"), ("one_liner", .str "x")]

/-- A document with the specification's pattern-violating example id. -/
def exDocUpper : List (String × Json) :=
  [("id", .str "UpperCase"), ("one_liner", .str "x")]

/-- A minimal valid metadata document with the given id. -/
def okDoc (idv : String) : Json :=
  .obj [("id", .str idv), ("one_liner", .str "demo")]

/-- A `.git` marker file. -/
def gitFile : FileEntry := ⟨".git", .json .null, 0⟩

/-- A `project.metadata.json` file holding the parsed value `j`. -/
def metaFile (j : Json) (mt : Int) : FileEntry := ⟨metadataFileName, .json j, mt⟩

/-- Entry fixtures for the conflict-determinism vector: identical id at
`/a/zeta` and `/a/alpha`. -/
def eZeta : Entry :=
  ⟨"x", "/a/zeta", "demo", metadataFileName, 0, none, none, none, none⟩

/-- See `eZeta`. -/
def eAlpha : Entry :=
  ⟨"x", "/a/alpha", "demo", metadataFileName, 0, none, none, none, none⟩

/-- A root holding one repository with a malformed metadata file and one
valid repository. -/
def exTreeMalformed : FSTree :=
  .dir []
    [("bad", .dir [gitFile, ⟨metadataFileName, .malformed "Expecting value", 0⟩] []),
     ("good", .dir [gitFile, metaFile (okDoc "proj1") 1] [])]

/-- A repository whose metadata file parses to the bare number `5`. -/
def exTreeBareNum : FSTree :=
  .dir [gitFile, ⟨metadataFileName, .json (.num 5), 0⟩] []

/-- A repository root that itself contains a nested repository. -/
def exTreeNested : FSTree :=
  .dir [gitFile, metaFile (okDoc "outer") 1]
    [("inner", .dir [gitFile, metaFile (okDoc "inner") 2] [])]

/-- A denylisted directory (`node_modules`) containing a repository with a
valid metadata file. -/
def exTreeSkip : FSTree :=
  .dir [] [("node_modules", .dir [gitFile, metaFile (okDoc "hidden") 3] [])]

/-- A repository root with no metadata file at all. -/
def exTreeNoMeta : FSTree := .dir [gitFile] [("sub", .dir [] [])]

/-- A root holding one repository with a malformed metadata file and one
whose metadata file parses to the bare number `5`. -/
def exTreeMixed : FSTree :=
  .dir []
    [("bad", .dir [gitFile, ⟨metadataFileName, .malformed "Expecting value", 0⟩] []),
     ("crash", .dir [gitFile, ⟨metadataFileName, .json (.num 5), 0⟩] [])]

/-! ## String order and sort lemmas -/

theorem listStrLe_refl (l : List Char) : listStrLe l l = true := by
  induction l with
  | nil => rfl
  | cons a as ih => simp [listStrLe, ih]

theorem listStrLe_total (a b : List Char) :
    listStrLe a b = true ∨ listStrLe b a = true := by
  induction a generalizing b with
  | nil => exact .inl rfl
  | cons x xs ih =>
    cases b with
    | nil => exact .inr rfl
    | cons y ys =>
      by_cases hxy : x.toNat < y.toNat
      · exact .inl (by simp [listStrLe, hxy])
      · by_cases hyx : y.toNat < x.toNat
        · exact .inr (by simp [listStrLe, hyx])
        · rcases ih ys with h | h
          · exact .inl (by simp [listStrLe, hxy, hyx, h])
          · exact .inr (by simp [listStrLe, hxy, hyx, h])

theorem listStrLe_trans {a b c : List Char} (hab : listStrLe a b = true)
    (hbc : listStrLe b c = true) : listStrLe a c = true := by
  induction a generalizing b c with
  | nil => rfl
  | cons x xs ih =>
    cases b with
    | nil => simp [listStrLe] at hab
    | cons y ys =>
      cases c with
      | nil => simp [listStrLe] at hbc
      | cons z zs =>
        simp only [listStrLe] at hab hbc ⊢
        by_cases h1 : x.toNat < y.toNat
        · by_cases h2 : y.toNat < z.toNat
          · have h3 : x.toNat < z.toNat := by omega
            simp [h3]
          · by_cases h4 : z.toNat < y.toNat
            · simp [h2, h4] at hbc
            · have h3 : x.toNat < z.toNat := by omega
              simp [h3]
        · by_cases h5 : y.toNat < x.toNat
          · simp [h1, h5] at hab
          · by_cases h2 : y.toNat < z.toNat
            · have h3 : x.toNat < z.toNat := by omega
              simp [h3]
            · by_cases h4 : z.toNat < y.toNat
              · simp [h2, h4] at hbc
              · have h6 : ¬ x.toNat < z.toNat := by omega
                have h7 : ¬ z.toNat < x.toNat := by omega
                simp only [h1, h5, if_false] at hab
                simp only [h2, h4, if_false] at hbc
                simp only [h6, h7, if_false]
                exact ih hab hbc

theorem listStrLe_antisymm {a b : List Char} (hab : listStrLe a b = true)
    (hba : listStrLe b a = true) : a = b := by
  induction a generalizing b with
  | nil => cases b with
    | nil => rfl
    | cons y ys => simp [listStrLe] at hba
  | cons x xs ih =>
    cases b with
    | nil => simp [listStrLe] at hab
    | cons y ys =>
      simp only [listStrLe] at hab hba
      by_cases hxy : x.toNat < y.toNat
      · have hyx : ¬ y.toNat < x.toNat := by omega
        simp only [if_neg hyx, if_pos hxy] at hba
        exact Bool.noConfusion hba
      · by_cases hyx : y.toNat < x.toNat
        · simp only [if_neg hxy, if_pos hyx] at hab
          exact Bool.noConfusion hab
        · have hxyeq : x = y := Char.ext (UInt32.ext (by
            simp only [Char.toNat] at hxy hyx; omega))
          subst hxyeq
          simp only [if_neg hxy, if_neg hyx] at hab hba
          exact congrArg (x :: ·) (ih hab hba)

theorem strLe_refl (a : String) : strLe a a = true := listStrLe_refl _

theorem strLe_total (a b : String) : strLe a b = true ∨ strLe b a = true :=
  listStrLe_total _ _

theorem strLe_trans {a b c : String} (hab : strLe a b = true)
    (hbc : strLe b c = true) : strLe a c = true := listStrLe_trans hab hbc

theorem strLe_antisymm {a b : String} (hab : strLe a b = true)
    (hba : strLe b a = true) : a = b := by
  have := listStrLe_antisymm hab hba
  exact String.ext (by simpa [String.toList] using this)

theorem perm_insSorted {α : Type} (le : α → α → Bool) (x : α) (l : List α) :
    List.Perm (insSorted le x l) (x :: l) := by
  induction l with
  | nil => exact .refl _
  | cons y ys ih =>
    by_cases h : le x y = true
    · simp [insSorted, h]
    · simp only [insSorted, h]
      simp only [Bool.not_eq_true] at h
      simp [h]
      exact .trans (.cons y ih) (.swap x y ys)

theorem perm_insSort {α : Type} (le : α → α → Bool) (l : List α) :
    List.Perm (insSort le l) l := by
  induction l with
  | nil => exact .refl _
  | cons x xs ih =>
    exact .trans (perm_insSorted le x (insSort le xs)) (.cons x ih)

theorem pairwise_insSorted {α : Type} {le : α → α → Bool}
    (total : ∀ a b, le a b = true ∨ le b a = true)
    (trans : ∀ {a b c}, le a b = true → le b c = true → le a c = true)
    (x : α) {l : List α} (hl : l.Pairwise (fun a b => le a b = true)) :
    (insSorted le x l).Pairwise (fun a b => le a b = true) := by
  induction l with
  | nil => simp [insSorted]
  | cons y ys ih =>
    rcases hl with _ | ⟨hy, hys⟩
    by_cases h : le x y = true
    · rw [show insSorted le x (y :: ys) = x :: y :: ys from by
        simp [insSorted, h]]
      refine .cons ?_ (.cons hy hys)
      intro b hb
      rcases List.mem_cons.mp hb with hb | hb
      · subst hb; exact h
      · exact trans h (hy _ hb)
    · rw [show insSorted le x (y :: ys) = y :: insSorted le x ys from by
        simp [insSorted, h]]
      refine .cons ?_ (ih hys)
      have hxle : le y x = true := (total x y).resolve_left h
      intro b hb
      rcases List.mem_cons.mp ((perm_insSorted le x ys).mem_iff.mp hb) with hb2 | hb2
      · subst hb2; exact hxle
      · exact hy _ hb2

theorem pairwise_insSort {α : Type} {le : α → α → Bool}
    (total : ∀ a b, le a b = true ∨ le b a = true)
    (trans : ∀ {a b c}, le a b = true → le b c = true → le a c = true)
    (l : List α) : (insSort le l).Pairwise (fun a b => le a b = true) := by
  induction l with
  | nil => exact .nil
  | cons x xs ih => exact pairwise_insSorted total trans x ih

/-- Two sorted lists that are permutations of each other and whose sort keys
are pairwise distinct are equal.  Used for traversal-order independence. -/
theorem eq_of_perm_of_sorted_nodupKey {α β : Type} {le : α → α → Bool}
    {key : α → β} (anti : ∀ {a b}, le a b = true → le b a = true → key a = key b) :
    ∀ {l₁ l₂ : List α}, List.Perm l₁ l₂ →
      l₁.Pairwise (fun a b => le a b = true) →
      l₂.Pairwise (fun a b => le a b = true) →
      (l₁.map key).Nodup → l₁ = l₂ := by
  intro l₁
  induction l₁ with
  | nil => intro l₂ hp _ _ _; exact (hp.symm.eq_nil).symm
  | cons x xs ih =>
    intro l₂ hp h₁ h₂ hnd
    cases l₂ with
    | nil => exact absurd hp.eq_nil (by simp)
    | cons y ys =>
      rcases h₁ with _ | ⟨hx, hxs⟩
      rcases h₂ with _ | ⟨hy, hys⟩
      have hxy : x = y := by
        by_contra hne
        have hxmem : x ∈ y :: ys := hp.mem_iff.mp (by simp)
        have hxys : x ∈ ys := by
          rcases hxmem with _ | h
          · exact absurd rfl hne
          · assumption
        have hymem : y ∈ x :: xs := hp.symm.mem_iff.mp (by simp)
        have hyxs : y ∈ xs := by
          rcases hymem with _ | h
          · exact absurd rfl (fun h' => hne h'.symm)
          · assumption
        have h1 : le x y = true := hx _ hyxs
        have h2 : le y x = true := hy _ hxys
        have hk : key x = key y := anti h1 h2
        simp only [List.map_cons, List.nodup_cons] at hnd
        exact hnd.1 (hk ▸ List.mem_map_of_mem key hyxs)
      subst hxy
      have htail : List.Perm xs ys := (List.perm_cons x).mp hp
      simp only [List.map_cons, List.nodup_cons] at hnd
      exact congrArg (x :: ·) (ih htail hxs hys hnd.2)

/-! ## Validator lemmas -/

theorem getKey_isSome_of_hasKey {data : List (String × Json)} {k : String}
    (h : hasKey data k = true) : ∃ v, getKey data k = some v := by
  unfold hasKey at h
  cases hf : data.find? (fun p => p.1 == k) with
  | none => rw [hf] at h; simp at h
  | some p => exact ⟨p.2, by unfold getKey; rw [hf]; rfl⟩

theorem hasKey_of_getKey {data : List (String × Json)} {k : String} {v : Json}
    (h : getKey data k = some v) : hasKey data k = true := by
  unfold getKey at h
  unfold hasKey
  cases hf : data.find? (fun p => p.1 == k) with
  | none => rw [hf] at h; simp at h
  | some p => rfl

/-- Everything a successful manual validation guarantees about the
document (one fact per check, in source order). -/
theorem validate_none_inv {data : List (String × Json)}
    (h : validate_metadata_manual data = none) :
    hasKey data "id" = true ∧ hasKey data "one_liner" = true ∧
    (∃ s, getKey data "id" = some (.str s) ∧ ID_RE_match s = true) ∧
    (∃ ol, getKey data "one_liner" = some (.str ol) ∧ ol.length ≤ 120) ∧
    titleBad data = false ∧ strListBad data "tags" = false ∧
    strListBad data "stack" = false ∧
    (getKey data "entrypoints" = none ∨
      ∃ eps, getKey data "entrypoints" = some (.obj eps) ∧
        eps.all (fun p => p.2.isStr) = true) := by
  have h1 : hasKey data "id" = true := by
    cases hhk : hasKey data "id" with
    | false => simp [validate_metadata_manual, hhk] at h
    | true => rfl
  have h2 : hasKey data "one_liner" = true := by
    cases hhk : hasKey data "one_liner" with
    | false => simp [validate_metadata_manual, h1, hhk] at h
    | true => rfl
  rcases hid : getKey data "id" with _ | j
  · rcases getKey_isSome_of_hasKey h1 with ⟨v, hv⟩
    rw [hid] at hv; cases hv
  · cases j with
    | str s =>
      have hm : ID_RE_match s = true := by
        cases hmm : ID_RE_match s with
        | false => simp [validate_metadata_manual, h1, h2, hid, hmm] at h
        | true => rfl
      rcases hol : getKey data "one_liner" with _ | jo
      · rcases getKey_isSome_of_hasKey h2 with ⟨v, hv⟩
        rw [hol] at hv; cases hv
      · cases jo with
        | str ol =>
          have hlen : ol.length ≤ 120 := by
            by_cases hl : 120 < ol.length
            · simp [validate_metadata_manual, h1, h2, hid, hm, hol, hl] at h
            · omega
          have hnl : ¬ 120 < ol.length := by omega
          have htl : titleBad data = false := by
            cases ht : titleBad data with
            | true =>
              simp [validate_metadata_manual, h1, h2, hid, hm, hol, hnl, ht] at h
            | false => rfl
          have htg : strListBad data "tags" = false := by
            cases ht : strListBad data "tags" with
            | true =>
              simp [validate_metadata_manual, h1, h2, hid, hm, hol, hnl, htl,
                ht] at h
            | false => rfl
          have hst : strListBad data "stack" = false := by
            cases ht : strListBad data "stack" with
            | true =>
              simp [validate_metadata_manual, h1, h2, hid, hm, hol, hnl, htl,
                htg, ht] at h
            | false => rfl
          refine ⟨h1, h2, ⟨s, rfl, hm⟩, ⟨ol, rfl, hlen⟩, htl, htg, hst, ?_⟩
          rcases hep : getKey data "entrypoints" with _ | je
          · exact .inl rfl
          · cases je with
            | obj eps =>
              refine .inr ⟨eps, rfl, ?_⟩
              cases hall : eps.all (fun p => p.2.isStr) with
              | false =>
                simp [validate_metadata_manual, h1, h2, hid, hm, hol, hnl,
                  htl, htg, hst, hep, hall] at h
              | true => rfl
            | null =>
              simp [validate_metadata_manual, h1, h2, hid, hm, hol, hnl, htl,
                htg, hst, hep] at h
            | bool b =>
              simp [validate_metadata_manual, h1, h2, hid, hm, hol, hnl, htl,
                htg, hst, hep] at h
            | num n =>
              simp [validate_metadata_manual, h1, h2, hid, hm, hol, hnl, htl,
                htg, hst, hep] at h
            | str s2 =>
              simp [validate_metadata_manual, h1, h2, hid, hm, hol, hnl, htl,
                htg, hst, hep] at h
            | arr xs =>
              simp [validate_metadata_manual, h1, h2, hid, hm, hol, hnl, htl,
                htg, hst, hep] at h
        | null => simp [validate_metadata_manual, h1, h2, hid, hm, hol] at h
        | bool b => simp [validate_metadata_manual, h1, h2, hid, hm, hol] at h
        | num n => simp [validate_metadata_manual, h1, h2, hid, hm, hol] at h
        | arr xs => simp [validate_metadata_manual, h1, h2, hid, hm, hol] at h
        | obj o => simp [validate_metadata_manual, h1, h2, hid, hm, hol] at h
    | null => simp [validate_metadata_manual, h1, h2, hid] at h
    | bool b => simp [validate_metadata_manual, h1, h2, hid] at h
    | num n => simp [validate_metadata_manual, h1, h2, hid] at h
    | arr xs => simp [validate_metadata_manual, h1, h2, hid] at h
    | obj o => simp [validate_metadata_manual, h1, h2, hid] at h

/-- A present, string-valued id failing the (Python-semantics) pattern is
rejected with the message citing the pattern. -/
theorem validate_fails_pattern {data : List (String × Json)} {s : String}
    (hid : getKey data "id" = some (.str s))
    (hone : hasKey data "one_liner" = true) (hm : ID_RE_match s = false) :
    validate_metadata_manual data = some idPatternMsg := by
  have h1 : hasKey data "id" = true := hasKey_of_getKey hid
  simp [validate_metadata_manual, h1, hone, hid, hm]

/-- Restricting a document to the allowed field set does not change lookups
of allowed keys. -/
theorem find_filter_allowed (data : List (String × Json)) {k : String}
    (hk : ALLOWED_FIELDS.contains k = true) :
    (data.filter (fun p => ALLOWED_FIELDS.contains p.1)).find?
        (fun p => p.1 == k)
      = data.find? (fun p => p.1 == k) := by
  induction data with
  | nil => rfl
  | cons q rest ih =>
    by_cases hq : ALLOWED_FIELDS.contains q.1 = true
    · rw [List.filter_cons_of_pos (by simpa using hq)]
      by_cases hqk : (q.1 == k) = true
      · rw [List.find?_cons_of_pos _ (by simpa using hqk),
          List.find?_cons_of_pos _ (by simpa using hqk)]
      · rw [List.find?_cons_of_neg _ (by simpa using hqk),
          List.find?_cons_of_neg _ (by simpa using hqk), ih]
    · have hqk : (q.1 == k) = false := by
        by_cases he : q.1 = k
        · subst he; exact absurd hk hq
        · simpa using he
      rw [List.filter_cons_of_neg (by simpa using hq),
        List.find?_cons_of_neg _ (by simp [hqk]), ih]

theorem getKey_filter (data : List (String × Json)) {k : String}
    (hk : ALLOWED_FIELDS.contains k = true) :
    getKey (data.filter (fun p => ALLOWED_FIELDS.contains p.1)) k
      = getKey data k := by
  unfold getKey; rw [find_filter_allowed data hk]

theorem hasKey_filter (data : List (String × Json)) {k : String}
    (hk : ALLOWED_FIELDS.contains k = true) :
    hasKey (data.filter (fun p => ALLOWED_FIELDS.contains p.1)) k
      = hasKey data k := by
  unfold hasKey; rw [find_filter_allowed data hk]

theorem titleBad_filter (data : List (String × Json)) :
    titleBad (data.filter (fun p => ALLOWED_FIELDS.contains p.1))
      = titleBad data := by
  unfold titleBad; rw [getKey_filter data (by decide)]

theorem strListBad_filter (data : List (String × Json)) {k : String}
    (hk : ALLOWED_FIELDS.contains k = true) :
    strListBad (data.filter (fun p => ALLOWED_FIELDS.contains p.1)) k
      = strListBad data k := by
  unfold strListBad; rw [getKey_filter data hk]

/-! ## Claim C4 -/

/-- C4, counterexample: on the claim's own example
`{"id":"a","one_liner":"x","foo":1}` manual validation fails with the
id-pattern message (the pattern requires ids of length at least 2 and the
checks are fail-fast in source order), not with a message listing
`['foo']`. -/
theorem C4_counterexample :
    validate_metadata_manual exDocFoo = some idPatternMsg
      ∧ idPatternMsg ≠
        "unexpected fields: " ++ pyStrListRepr (insSort strLe ["foo"]) :=
  ⟨rfl, by decide⟩

/-- C4, amended: for every document whose restriction to the allowed field
set passes manual validation and which contains at least one field outside
the allowed set, validation fails reporting the full sorted list of the
unexpected field names; in particular, for
`{"id":"aa","one_liner":"x","foo":1}` (the claim's example with a
pattern-valid id) validation fails listing `['foo']`.  (For documents
failing an earlier check the validator reports that earlier error instead:
the original example's id `"a"` fails the pattern.) -/
theorem C4_amended :
    (∀ data : List (String × Json),
      validate_metadata_manual
          (data.filter (fun p => ALLOWED_FIELDS.contains p.1)) = none →
      (data.map Prod.fst).filter (fun k => !(ALLOWED_FIELDS.contains k)) ≠ [] →
      validate_metadata_manual data =
        some ("unexpected fields: " ++ pyStrListRepr (insSort strLe
          ((data.map Prod.fst).filter (fun k => !(ALLOWED_FIELDS.contains k))))))
  ∧ validate_metadata_manual exDocFoo2
      = some ("unexpected fields: " ++ pyStrListRepr ["foo"]) := by
  constructor
  · intro data hok hext
    obtain ⟨h1, h2, ⟨s, hid, hm⟩, ⟨ol, hol, hlen⟩, htl, htg, hst, hep⟩ :=
      validate_none_inv hok
    rw [hasKey_filter data (by decide)] at h1
    rw [hasKey_filter data (by decide)] at h2
    rw [getKey_filter data (by decide)] at hid
    rw [getKey_filter data (by decide)] at hol
    rw [titleBad_filter data] at htl
    rw [strListBad_filter data (by decide)] at htg
    rw [strListBad_filter data (by decide)] at hst
    rw [getKey_filter data (by decide)] at hep
    have hnl : ¬ 120 < ol.length := by omega
    have hie : ((data.map Prod.fst).filter
        (fun k => !(ALLOWED_FIELDS.contains k))).isEmpty = false := by
      cases hc : (data.map Prod.fst).filter (fun k => !(ALLOWED_FIELDS.contains k)) with
      | nil => exact absurd hc hext
      | cons a l => rfl
    have hex2 : ∃ x, (∃ y, (x, y) ∈ data) ∧ x ∉ ALLOWED_FIELDS := by
      cases hc : (data.map Prod.fst).filter
          (fun k => !(ALLOWED_FIELDS.contains k)) with
      | nil => exact absurd hc hext
      | cons a l =>
        have ha : a ∈ (data.map Prod.fst).filter
            (fun k => !(ALLOWED_FIELDS.contains k)) := by rw [hc]; simp
        have hmf := List.mem_filter.mp ha
        rcases List.mem_map.mp hmf.1 with ⟨p, hp, hpe⟩
        refine ⟨a, ⟨p.2, ?_⟩, by simpa using hmf.2⟩
        rw [← hpe]
        simpa using hp
    rcases hep with hep | ⟨eps, hep, hall⟩
    · simp [validate_metadata_manual, h1, h2, hid, hm, hol, hnl, htl, htg,
        hst, hep, unexpectedFieldsCheck, hie, hex2]
    · simp [validate_metadata_manual, h1, h2, hid, hm, hol, hnl, htl, htg,
        hst, hep, hall, unexpectedFieldsCheck, hie, hex2]
  · rfl

/-- C4, witness for the amended theorem at the concrete example. -/
theorem C4_amended_witness :
    validate_metadata_manual
        (exDocFoo2.filter (fun p => ALLOWED_FIELDS.contains p.1)) = none
  ∧ (exDocFoo2.map Prod.fst).filter (fun k => !(ALLOWED_FIELDS.contains k)) ≠ []
  ∧ validate_metadata_manual exDocFoo2 =
      some ("unexpected fields: " ++ pyStrListRepr (insSort strLe
        ((exDocFoo2.map Prod.fst).filter (fun k => !(ALLOWED_FIELDS.contains k))))) :=
  ⟨rfl, by decide, C4_amended.1 exDocFoo2 rfl (by decide)⟩

/-! ## Claim C5 -/

/-- C5, counterexample: the validator accepts `{"id":"a0\n","one_liner":"x"}`
although `"a0\n"` is not in the formal language of
`^[a-z0-9][a-z0-9-_]\x7b1,64\x7d$` — Python's `$` also matches just before a
single trailing newline — refuting both directions of the claim as stated
(a non-matching string id is accepted, and an accepted document's id fails
the pattern). -/
theorem C5_counterexample :
    validate_metadata_manual exDocNewline = none
      ∧ getKey exDocNewline "id" = some (.str "a0\n")
      ∧ idRegexMatch "a0\n" = false :=
  ⟨rfl, rfl, rfl⟩

/-- C5, amended: with the Python `re.match` semantics of the pattern — its
formal language extended by an optional single trailing newline
(`ID_RE_match`) — the claim holds: a document whose id field is a string
failing the match is rejected with the error citing the pattern (provided
`one_liner` is present, whose absence is reported first), every accepted
document's id satisfies the match, and the claim's example strings
`"UpperCase"`, `"-leadinghyphen"` and `""` all fail it. -/
theorem C5_amended :
    (∀ (data : List (String × Json)) (s : String),
      getKey data "id" = some (.str s) → hasKey data "one_liner" = true →
      ID_RE_match s = false → validate_metadata_manual data = some idPatternMsg)
  ∧ (∀ data : List (String × Json), validate_metadata_manual data = none →
      ∃ s, getKey data "id" = some (.str s) ∧ ID_RE_match s = true)
  ∧ ID_RE_match "UpperCase" = false
  ∧ ID_RE_match "-leadinghyphen" = false
  ∧ ID_RE_match "" = false := by
  refine ⟨?_, ?_, rfl, rfl, rfl⟩
  · intro data s hid hone hm
    exact validate_fails_pattern hid hone hm
  · intro data h
    obtain ⟨_, _, hs, _⟩ := validate_none_inv h
    exact hs

/-- C5, witness for the amended theorem at the concrete example. -/
theorem C5_amended_witness :
    getKey exDocUpper "id" = some (.str "UpperCase")
  ∧ hasKey exDocUpper "one_liner" = true
  ∧ ID_RE_match "UpperCase" = false
  ∧ validate_metadata_manual exDocUpper = some idPatternMsg :=
  ⟨rfl, rfl, rfl, C5_amended.1 exDocUpper "UpperCase" rfl rfl rfl⟩

/-! ## Resolver lemmas -/

theorem pathLe_total (a b : Entry) : pathLe a b = true ∨ pathLe b a = true :=
  strLe_total _ _

theorem pathLe_trans {a b c : Entry} (hab : pathLe a b = true)
    (hbc : pathLe b c = true) : pathLe a c = true := strLe_trans hab hbc

theorem idPathLe_total (a b : Entry) : idPathLe a b = true ∨ idPathLe b a = true := by
  unfold idPathLe
  by_cases h : a.id = b.id
  · rcases strLe_total a.path b.path with h' | h'
    · exact .inl (by rw [if_pos h]; exact h')
    · exact .inr (by rw [if_pos h.symm]; exact h')
  · rcases strLe_total a.id b.id with h' | h'
    · exact .inl (by rw [if_neg h]; exact h')
    · exact .inr (by rw [if_neg (fun hh => h hh.symm)]; exact h')

theorem idPathLe_trans {a b c : Entry} (hab : idPathLe a b = true)
    (hbc : idPathLe b c = true) : idPathLe a c = true := by
  unfold idPathLe at hab hbc ⊢
  by_cases h1 : a.id = b.id <;> by_cases h2 : b.id = c.id
  · rw [if_pos h1] at hab; rw [if_pos h2] at hbc
    rw [if_pos (h1.trans h2)]
    exact strLe_trans hab hbc
  · rw [if_pos h1] at hab; rw [if_neg h2] at hbc
    have h3 : ¬ a.id = c.id := fun hh => h2 (h1.symm.trans hh)
    rw [if_neg h3, h1]
    exact hbc
  · rw [if_neg h1] at hab; rw [if_pos h2] at hbc
    have h3 : ¬ a.id = c.id := fun hh => h1 (hh.trans h2.symm)
    rw [if_neg h3, ← h2]
    exact hab
  · rw [if_neg h1] at hab; rw [if_neg h2] at hbc
    have h3 : ¬ a.id = c.id := by
      intro hh
      exact h1 (strLe_antisymm hab (hh ▸ hbc))
    rw [if_neg h3]
    exact strLe_trans hab hbc

theorem conflictIdLe_total (a b : ConflictRecord) :
    conflictIdLe a b = true ∨ conflictIdLe b a = true := strLe_total _ _

theorem conflictIdLe_trans {a b c : ConflictRecord}
    (hab : conflictIdLe a b = true) (hbc : conflictIdLe b c = true) :
    conflictIdLe a c = true := strLe_trans hab hbc

/-- Keys of the group map after one insertion. -/
theorem keys_insertById (m : List (String × List Entry)) (x : Entry) :
    (insertById m x).map Prod.fst =
      if x.id ∈ m.map Prod.fst then m.map Prod.fst
      else m.map Prod.fst ++ [x.id] := by
  induction m with
  | nil => simp [insertById]
  | cons p rest ih =>
    obtain ⟨k0, es0⟩ := p
    by_cases h : k0 = x.id
    · subst h
      rw [show insertById ((x.id, es0) :: rest) x = (x.id, es0 ++ [x]) :: rest from by
        simp [insertById]]
      simp
    · rw [show insertById ((k0, es0) :: rest) x = (k0, es0) :: insertById rest x from by
        simp [insertById, h]]
      simp only [List.map_cons, ih]
      by_cases hm : x.id ∈ rest.map Prod.fst
      · rw [if_pos hm, if_pos (by simp [hm])]
      · rw [if_neg hm, if_neg (by
          simp only [List.mem_cons]
          rintro (hh | hh)
          · exact h hh.symm
          · exact hm hh), List.cons_append]

/-- Membership in the group map after one insertion (assuming distinct
keys). -/
theorem mem_insertById {m : List (String × List Entry)} (x : Entry)
    {k : String} {es : List Entry} (hnd : (m.map Prod.fst).Nodup) :
    (k, es) ∈ insertById m x ↔
      (¬ k = x.id ∧ (k, es) ∈ m) ∨
      (k = x.id ∧
        ((∃ es0, (x.id, es0) ∈ m ∧ es = es0 ++ [x]) ∨
         (x.id ∉ m.map Prod.fst ∧ es = [x]))) := by
  induction m with
  | nil =>
    constructor
    · intro h
      have heq : (k, es) = (x.id, [x]) := List.mem_singleton.mp h
      have hk : k = x.id := congrArg Prod.fst heq
      have hes : es = [x] := congrArg Prod.snd heq
      exact .inr ⟨hk, .inr ⟨by simp, hes⟩⟩
    · rintro (⟨_, hmem⟩ | ⟨hk, (⟨es0, hmem, _⟩ | ⟨_, hes⟩)⟩)
      · exact absurd hmem (List.not_mem_nil _)
      · exact absurd hmem (List.not_mem_nil _)
      · subst hk; subst hes; exact List.mem_singleton.mpr rfl
  | cons p rest ih =>
    obtain ⟨k0, es0⟩ := p
    simp only [List.map_cons, List.nodup_cons] at hnd
    obtain ⟨hk0nm, hndr⟩ := hnd
    by_cases h : k0 = x.id
    · subst h
      rw [show insertById ((x.id, es0) :: rest) x = (x.id, es0 ++ [x]) :: rest from by
        simp [insertById]]
      constructor
      · intro h1
        rcases List.mem_cons.mp h1 with heq | htl
        · have hk : k = x.id := congrArg Prod.fst heq
          have hes : es = es0 ++ [x] := congrArg Prod.snd heq
          exact .inr ⟨hk, .inl ⟨es0, List.mem_cons_self _ _, hes⟩⟩
        · have hkm : k ∈ rest.map Prod.fst :=
            List.mem_map.mpr ⟨(k, es), htl, rfl⟩
          have hne : ¬ k = x.id := fun hh => hk0nm (hh ▸ hkm)
          exact .inl ⟨hne, List.mem_cons_of_mem _ htl⟩
      · rintro (⟨hne, hm⟩ | ⟨hk, (⟨es0x, hm, hes⟩ | ⟨hnm, hes⟩)⟩)
        · rcases List.mem_cons.mp hm with heq | htl
          · exact absurd (congrArg Prod.fst heq) hne
          · exact List.mem_cons_of_mem _ htl
        · rcases List.mem_cons.mp hm with heq | htl
          · have hx : es0x = es0 := congrArg Prod.snd heq
            subst hx; subst hes; subst hk
            exact List.mem_cons_self _ _
          · exact absurd (List.mem_map.mpr ⟨(x.id, es0x), htl, rfl⟩) hk0nm
        · simp at hnm
    · rw [show insertById ((k0, es0) :: rest) x = (k0, es0) :: insertById rest x from by
        simp [insertById, h]]
      constructor
      · intro h1
        rcases List.mem_cons.mp h1 with heq | htl
        · have hk : k = k0 := congrArg Prod.fst heq
          exact .inl ⟨fun hh => h (hk ▸ hh), List.mem_cons.mpr (.inl heq)⟩
        · rcases (ih hndr).mp htl with ⟨hne, hm⟩ | ⟨hk, hrest⟩
          · exact .inl ⟨hne, List.mem_cons_of_mem _ hm⟩
          · rcases hrest with ⟨es0x, hm, hes⟩ | ⟨hnm, hes⟩
            · exact .inr ⟨hk, .inl ⟨es0x, List.mem_cons_of_mem _ hm, hes⟩⟩
            · refine .inr ⟨hk, .inr ⟨?_, hes⟩⟩
              simp only [List.map_cons, List.mem_cons]
              rintro (hh | hh)
              · exact h hh.symm
              · exact hnm hh
      · rintro (⟨hne, hm⟩ | ⟨hk, (⟨es0x, hm, hes⟩ | ⟨hnm, hes⟩)⟩)
        · rcases List.mem_cons.mp hm with heq | htl
          · exact List.mem_cons.mpr (.inl heq)
          · exact List.mem_cons_of_mem _ ((ih hndr).mpr (.inl ⟨hne, htl⟩))
        · rcases List.mem_cons.mp hm with heq | htl
          · exact absurd (congrArg Prod.fst heq).symm h
          · exact List.mem_cons_of_mem _
              ((ih hndr).mpr (.inr ⟨hk, .inl ⟨es0x, htl, hes⟩⟩))
        · have hnm' : x.id ∉ rest.map Prod.fst := by
            intro hh
            exact hnm (by simp [hh])
          exact List.mem_cons_of_mem _
            ((ih hndr).mpr (.inr ⟨hk, .inr ⟨hnm', hes⟩⟩))

/-- Invariant of the grouping fold (`by_id`) after processing the prefix
`seen`: keys are pairwise distinct, each group holds exactly the seen
entries with its id in input order (hence is non-empty), and every seen id
has a group. -/
theorem grouped_foldl :
    ∀ (l : List Entry) (m : List (String × List Entry)) (seen : List Entry),
      (m.map Prod.fst).Nodup →
      (∀ k es, (k, es) ∈ m →
        es = seen.filter (fun e => e.id == k) ∧ es ≠ []) →
      (∀ e ∈ seen, e.id ∈ m.map Prod.fst) →
      ((l.foldl insertById m).map Prod.fst).Nodup ∧
      (∀ k es, (k, es) ∈ l.foldl insertById m →
        es = (seen ++ l).filter (fun e => e.id == k) ∧ es ≠ []) ∧
      (∀ e ∈ seen ++ l, e.id ∈ (l.foldl insertById m).map Prod.fst) := by
  intro l
  induction l with
  | nil =>
    intro m seen h1 h2 h3
    rw [List.foldl_nil, List.append_nil]
    exact ⟨h1, h2, h3⟩
  | cons x xs ih =>
    intro m seen h1 h2 h3
    have hnd' : ((insertById m x).map Prod.fst).Nodup := by
      rw [keys_insertById]
      by_cases hm : x.id ∈ m.map Prod.fst
      · rw [if_pos hm]; exact h1
      · rw [if_neg hm, List.nodup_append]
        refine ⟨h1, List.nodup_singleton _, ?_⟩
        intro a ha hb
        have hax : a = x.id := List.mem_singleton.mp hb
        subst hax
        exact hm ha
    have hch' : ∀ k es, (k, es) ∈ insertById m x →
        es = (seen ++ [x]).filter (fun e => e.id == k) ∧ es ≠ [] := by
      intro k es hmem
      rcases (mem_insertById x h1).mp hmem with ⟨hne, hm⟩ | ⟨hk, hrest⟩
      · obtain ⟨hes, hne'⟩ := h2 k es hm
        have hxk : (x.id == k) = false := by
          simp only [beq_eq_false_iff_ne, ne_eq]
          exact fun hh => hne hh.symm
        have hfx : List.filter (fun e => e.id == k) [x] = [] := by
          simp [List.filter, hxk]
        exact ⟨by rw [List.filter_append, hfx, List.append_nil]; exact hes, hne'⟩
      · subst hk
        have hfx : List.filter (fun e => e.id == x.id) [x] = [x] := by
          simp [List.filter]
        rcases hrest with ⟨es0, hm0, hes⟩ | ⟨hnm, hes⟩
        · obtain ⟨hes0, _⟩ := h2 _ es0 hm0
          refine ⟨by rw [hes, List.filter_append, hfx, hes0], ?_⟩
          rw [hes]; simp
        · have hsf : seen.filter (fun e => e.id == x.id) = [] := by
            cases hc : seen.filter (fun e => e.id == x.id) with
            | nil => rfl
            | cons a as =>
              have ha : a ∈ seen.filter (fun e => e.id == x.id) := by
                rw [hc]; exact List.mem_cons_self _ _
              have hmf := List.mem_filter.mp ha
              have haid : a.id = x.id := by simpa using hmf.2
              exact absurd (haid ▸ h3 a hmf.1) hnm
          refine ⟨by rw [hes, List.filter_append, hfx, hsf, List.nil_append], ?_⟩
          rw [hes]; simp
    have hcov' : ∀ e ∈ seen ++ [x], e.id ∈ (insertById m x).map Prod.fst := by
      intro e he
      rw [keys_insertById]
      rcases List.mem_append.mp he with he | he
      · have hc := h3 e he
        by_cases hm : x.id ∈ m.map Prod.fst
        · rw [if_pos hm]; exact hc
        · rw [if_neg hm]; exact List.mem_append.mpr (.inl hc)
      · have he' : e = x := List.mem_singleton.mp he
        rw [he']
        by_cases hm : x.id ∈ m.map Prod.fst
        · rw [if_pos hm]; exact hm
        · rw [if_neg hm]
          exact List.mem_append.mpr (.inr (List.mem_singleton.mpr rfl))
    have hse : seen ++ x :: xs = (seen ++ [x]) ++ xs := by simp
    rw [show (x :: xs).foldl insertById m = xs.foldl insertById (insertById m x)
      from rfl, hse]
    exact ih (insertById m x) (seen ++ [x]) hnd' hch' hcov'

/-- Specification of `groupById`: distinct keys, each group is the filter of
the input on its id, every input id has a group. -/
theorem groupById_spec (l : List Entry) :
    ((groupById l).map Prod.fst).Nodup ∧
    (∀ k es, (k, es) ∈ groupById l →
      es = l.filter (fun e => e.id == k) ∧ es ≠ []) ∧
    (∀ e ∈ l, e.id ∈ (groupById l).map Prod.fst) := by
  have h := grouped_foldl l [] [] (by simp)
    (fun k es hm => absurd hm (List.not_mem_nil _))
    (fun e he => absurd he (List.not_mem_nil _))
  simpa [groupById] using h

/-- `resolve_conflicts` with its let-bindings unfolded. -/
theorem resolve_conflicts_eq (entries : List Entry) :
    resolve_conflicts entries =
      (insSort idPathLe
        ((groupById (insSort pathLe entries)).filterMap (fun g => g.2.head?)),
       insSort conflictIdLe
        ((groupById (insSort pathLe entries)).filterMap (fun g =>
          if 1 < g.2.length then
            some (ConflictRecord.mk g.1 (g.2.map Entry.path))
          else none))) := rfl

/-- The head of a group is an input entry carrying the group's id whose path
is minimal among all input entries with that id. -/
theorem head_of_group {entries : List Entry} {pk : String} {pes : List Entry}
    {k : Entry} (hp : (pk, pes) ∈ groupById (insSort pathLe entries))
    (hh : pes.head? = some k) :
    k.id = pk ∧ k ∈ entries ∧
      ∀ e ∈ entries, e.id = pk → strLe k.path e.path = true := by
  obtain ⟨hfil, hne⟩ := (groupById_spec (insSort pathLe entries)).2.1 pk pes hp
  have hperm : List.Perm (insSort pathLe entries) entries := perm_insSort _ _
  have hpw : (insSort pathLe entries).Pairwise (fun a b => pathLe a b = true) :=
    pairwise_insSort pathLe_total (fun hab hbc => pathLe_trans hab hbc) _
  have hpes : pes.Pairwise (fun a b => pathLe a b = true) := by
    rw [hfil]; exact List.Pairwise.filter _ hpw
  cases hes : pes with
  | nil => rw [hes] at hh; cases hh
  | cons k0 tail =>
    rw [hes] at hh
    have hk0 : k0 = k := Option.some.inj hh
    subst hk0
    have hkmem : k0 ∈ pes := by rw [hes]; exact List.mem_cons_self _ _
    have hkfil := List.mem_filter.mp (hfil ▸ hkmem)
    have hkid : k0.id = pk := by simpa using hkfil.2
    refine ⟨hkid, hperm.subset hkfil.1, ?_⟩
    intro e he heid
    have hel : e ∈ insSort pathLe entries := hperm.mem_iff.mpr he
    have hefil : e ∈ pes := by
      rw [hfil]
      exact List.mem_filter.mpr ⟨hel, by simpa using heid⟩
    rw [hes] at hefil hpes
    rcases List.mem_cons.mp hefil with rfl | htl
    · exact strLe_refl _
    · exact (List.pairwise_cons.mp hpes).1 e htl

/-- The ids of the kept entries are exactly the group keys. -/
theorem filterMap_head_ids :
    ∀ gs : List (String × List Entry),
      (∀ p ∈ gs, p.2 ≠ []) →
      (∀ p ∈ gs, ∀ k, p.2.head? = some k → k.id = p.1) →
      (gs.filterMap (fun g => g.2.head?)).map Entry.id = gs.map Prod.fst := by
  intro gs
  induction gs with
  | nil => intro _ _; rfl
  | cons p rest ih =>
    intro h1 h2
    obtain ⟨pk, pes⟩ := p
    cases hes : pes with
    | nil => exact absurd (by rw [hes]) (h1 (pk, pes) (List.mem_cons_self _ _))
    | cons a tail =>
      have hh : pes.head? = some a := by rw [hes]; rfl
      have hid : a.id = pk := h2 (pk, pes) (List.mem_cons_self _ _) a hh
      rw [show ((pk, a :: tail) :: rest).filterMap (fun g => g.2.head?)
          = a :: rest.filterMap (fun g => g.2.head?) from by
        simp [List.filterMap_cons]]
      simp only [List.map_cons, hid]
      rw [ih (fun q hq => h1 q (List.mem_cons_of_mem _ hq))
        (fun q hq => h2 q (List.mem_cons_of_mem _ hq))]

/-- All structural facts about the output of `resolve_conflicts`. -/
theorem resolve_conflicts_facts (entries : List Entry) :
    ((resolve_conflicts entries).1.Pairwise (fun a b => idPathLe a b = true))
  ∧ ((resolve_conflicts entries).2.Pairwise (fun a b => conflictIdLe a b = true))
  ∧ ((resolve_conflicts entries).1.map Entry.id).Nodup
  ∧ (∀ k ∈ (resolve_conflicts entries).1,
      k ∈ entries ∧ ∀ e ∈ entries, e.id = k.id → strLe k.path e.path = true)
  ∧ (∀ e ∈ entries, ∃ k ∈ (resolve_conflicts entries).1, k.id = e.id)
  ∧ (∀ c ∈ (resolve_conflicts entries).2,
      2 ≤ c.paths.length
      ∧ List.Perm c.paths ((entries.filter (fun e => e.id == c.id)).map Entry.path)
      ∧ c.paths.Pairwise (fun a b => strLe a b = true)
      ∧ ∃ k ∈ (resolve_conflicts entries).1, k.id = c.id ∧ c.paths.head? = some k.path)
  ∧ (∀ e ∈ entries, 2 ≤ (entries.filter (fun x => x.id == e.id)).length →
      ∃ c ∈ (resolve_conflicts entries).2, c.id = e.id) := by
  have hperm : List.Perm (insSort pathLe entries) entries := perm_insSort _ _
  have hpw : (insSort pathLe entries).Pairwise (fun a b => pathLe a b = true) :=
    pairwise_insSort pathLe_total (fun hab hbc => pathLe_trans hab hbc) _
  obtain ⟨hnd, hch, hcov⟩ := groupById_spec (insSort pathLe entries)
  have hk0 : (resolve_conflicts entries).1 = insSort idPathLe
      ((groupById (insSort pathLe entries)).filterMap (fun g => g.2.head?)) := by
    rw [resolve_conflicts_eq]
  have hc0 : (resolve_conflicts entries).2 = insSort conflictIdLe
      ((groupById (insSort pathLe entries)).filterMap (fun g =>
        if 1 < g.2.length then
          some (ConflictRecord.mk g.1 (g.2.map Entry.path))
        else none)) := by
    rw [resolve_conflicts_eq]
  have hkperm : List.Perm (resolve_conflicts entries).1
      ((groupById (insSort pathLe entries)).filterMap (fun g => g.2.head?)) := by
    rw [hk0]; exact perm_insSort _ _
  have hcperm : List.Perm (resolve_conflicts entries).2
      ((groupById (insSort pathLe entries)).filterMap (fun g =>
        if 1 < g.2.length then
          some (ConflictRecord.mk g.1 (g.2.map Entry.path))
        else none)) := by
    rw [hc0]; exact perm_insSort _ _
  have hmemk : ∀ k, k ∈ (resolve_conflicts entries).1 ↔
      ∃ p ∈ groupById (insSort pathLe entries), p.2.head? = some k := by
    intro k
    rw [hkperm.mem_iff, List.mem_filterMap]
  refine ⟨?_, ?_, ?_, ?_, ?_, ?_, ?_⟩
  · rw [hk0]
    exact pairwise_insSort idPathLe_total (fun hab hbc => idPathLe_trans hab hbc) _
  · rw [hc0]
    exact pairwise_insSort conflictIdLe_total
      (fun hab hbc => conflictIdLe_trans hab hbc) _
  · have hmap : ((groupById (insSort pathLe entries)).filterMap
        (fun g => g.2.head?)).map Entry.id
        = (groupById (insSort pathLe entries)).map Prod.fst := by
      apply filterMap_head_ids
      · intro p hp
        exact (hch p.1 p.2 (by rw [Prod.mk.eta]; exact hp)).2
      · intro p hp k hh
        obtain ⟨pk, pes⟩ := p
        exact (head_of_group hp hh).1
    have hpm : ((resolve_conflicts entries).1.map Entry.id).Perm
        ((groupById (insSort pathLe entries)).map Prod.fst) := by
      rw [← hmap]; exact hkperm.map _
    exact hpm.nodup_iff.mpr hnd
  · intro k hk
    obtain ⟨p, hp, hh⟩ := (hmemk k).mp hk
    obtain ⟨pk, pes⟩ := p
    obtain ⟨hid, hmem, hmin⟩ := head_of_group hp hh
    exact ⟨hmem, fun e he heid => hmin e he (by rw [heid, hid])⟩
  · intro e he
    have hel : e ∈ insSort pathLe entries := hperm.mem_iff.mpr he
    have hidk := hcov e hel
    obtain ⟨p, hp, hpk⟩ := List.mem_map.mp hidk
    obtain ⟨pk, pes⟩ := p
    obtain ⟨hfil, hne⟩ := hch pk pes hp
    cases hes : pes with
    | nil => exact absurd hes hne
    | cons a tail =>
      have hh : pes.head? = some a := by rw [hes]; rfl
      have hid := (head_of_group hp hh).1
      refine ⟨a, (hmemk a).mpr ⟨(pk, pes), hp, hh⟩, ?_⟩
      rw [hid]
      exact hpk
  · intro c hc
    have hc' := hcperm.subset hc
    obtain ⟨p, hp, hf⟩ := List.mem_filterMap.mp hc'
    obtain ⟨pk, pes⟩ := p
    by_cases hlen : 1 < pes.length
    · rw [if_pos hlen] at hf
      have hceq : c = ConflictRecord.mk pk (pes.map Entry.path) :=
        (Option.some.inj hf).symm
      obtain ⟨hfil, hne⟩ := hch pk pes hp
      have hpes : pes.Pairwise (fun a b => pathLe a b = true) := by
        rw [hfil]; exact List.Pairwise.filter _ hpw
      have hcid : c.id = pk := by rw [hceq]
      have hcpaths : c.paths = pes.map Entry.path := by rw [hceq]
      refine ⟨?_, ?_, ?_, ?_⟩
      · rw [hcpaths, List.length_map]; omega
      · rw [hcpaths, hcid, hfil]
        exact (hperm.filter _).map _
      · rw [hcpaths]
        exact hpes.map _ (fun a b hab => hab)
      · cases hes : pes with
        | nil => exact absurd hes hne
        | cons a tail =>
          have hh : pes.head? = some a := by rw [hes]; rfl
          have hid := (head_of_group hp hh).1
          refine ⟨a, (hmemk a).mpr ⟨(pk, pes), hp, hh⟩, by rw [hid, hcid], ?_⟩
          rw [hcpaths, hes]
          rfl
    · rw [if_neg hlen] at hf
      cases hf
  · intro e he hlen
    have hel : e ∈ insSort pathLe entries := hperm.mem_iff.mpr he
    have hidk := hcov e hel
    obtain ⟨p, hp, hpk⟩ := List.mem_map.mp hidk
    obtain ⟨pk, pes⟩ := p
    obtain ⟨hfil, hne⟩ := hch pk pes hp
    have hplen : 1 < pes.length := by
      have hle : ((insSort pathLe entries).filter
          (fun x => x.id == pk)).length
          = (entries.filter (fun x => x.id == pk)).length :=
        (hperm.filter _).length_eq
      have hpk' : pk = e.id := hpk
      rw [hfil, hle, hpk']
      omega
    refine ⟨ConflictRecord.mk pk (pes.map Entry.path), ?_, hpk⟩
    rw [hcperm.mem_iff, List.mem_filterMap]
    exact ⟨(pk, pes), hp, by rw [if_pos hplen]⟩

/-! ## Claim C1 -/

/-- C1: the conflict resolver groups entries by id; within each group the
entry with the lexicographically smallest path is kept (it is an input entry
whose path is `≤` the path of every input entry sharing its id); every id
occurring in two or more entries yields a conflict record whose `paths`
field lists all member paths of that id in ascending lexicographic order;
the kept list is sorted by `(id, path)` ascending and the conflicts list by
`id` ascending; and on the specification's vector — one id at `/a/zeta` and
`/a/alpha` — the kept entry is the `/a/alpha` one and the conflict record
lists `["/a/alpha", "/a/zeta"]`. -/
theorem C1_conflict_resolution (entries : List Entry) :
    ((resolve_conflicts entries).1.Pairwise (fun a b => idPathLe a b = true))
  ∧ ((resolve_conflicts entries).2.Pairwise (fun a b => conflictIdLe a b = true))
  ∧ (∀ k ∈ (resolve_conflicts entries).1,
      k ∈ entries ∧ ∀ e ∈ entries, e.id = k.id → strLe k.path e.path = true)
  ∧ (∀ c ∈ (resolve_conflicts entries).2,
      List.Perm c.paths
        ((entries.filter (fun e => e.id == c.id)).map Entry.path)
      ∧ c.paths.Pairwise (fun a b => strLe a b = true))
  ∧ (∀ e ∈ entries, 2 ≤ (entries.filter (fun x => x.id == e.id)).length →
      ∃ c ∈ (resolve_conflicts entries).2, c.id = e.id)
  ∧ resolve_conflicts [eZeta, eAlpha]
      = ([eAlpha], [ConflictRecord.mk "x" ["/a/alpha", "/a/zeta"]]) := by
  obtain ⟨hs1, hs2, _, hkept, _, hconf, hbig⟩ := resolve_conflicts_facts entries
  exact ⟨hs1, hs2, hkept,
    fun c hc => ⟨(hconf c hc).2.1, (hconf c hc).2.2.1⟩, hbig, rfl⟩

/-- C1, witness: the concrete conflict-determinism vector. -/
theorem C1_conflict_resolution_witness :
    resolve_conflicts [eZeta, eAlpha]
      = ([eAlpha], [ConflictRecord.mk "x" ["/a/alpha", "/a/zeta"]]) :=
  (C1_conflict_resolution []).2.2.2.2.2

/-! ## Claim C10 -/

/-- C10: the kept list has pairwise-distinct ids, each kept entry is a
member of the input list, every id occurring in the input has exactly one
kept entry (coverage here, uniqueness by the distinct ids), and every
conflict record lists at least two paths of which the first is the kept
entry's path for that id. -/
theorem C10_resolver_invariants (entries : List Entry) :
    ((resolve_conflicts entries).1.map Entry.id).Nodup
  ∧ (∀ k ∈ (resolve_conflicts entries).1, k ∈ entries)
  ∧ (∀ e ∈ entries, ∃ k ∈ (resolve_conflicts entries).1, k.id = e.id)
  ∧ (∀ c ∈ (resolve_conflicts entries).2,
      2 ≤ c.paths.length ∧
        ∃ k ∈ (resolve_conflicts entries).1,
          k.id = c.id ∧ c.paths.head? = some k.path) := by
  obtain ⟨_, _, hnd, hkept, hcovg, hconf, _⟩ := resolve_conflicts_facts entries
  exact ⟨hnd, fun k hk => (hkept k hk).1, hcovg,
    fun c hc => ⟨(hconf c hc).1, (hconf c hc).2.2.2⟩⟩

/-- C10, witness: discharging the membership hypotheses on the concrete
two-entry input. -/
theorem C10_resolver_invariants_witness :
    ∃ k ∈ (resolve_conflicts [eZeta, eAlpha]).1, k.id = eZeta.id :=
  (C10_resolver_invariants [eZeta, eAlpha]).2.2.1 eZeta (List.mem_cons_self _ _)

/-! ## Claim C9 -/

/-- The resolver's output depends only on the multiset of entries whenever
entry paths are pairwise distinct: the path sort is then canonical. -/
theorem resolve_conflicts_perm_invariant {e₁ e₂ : List Entry}
    (hp : List.Perm e₁ e₂) (hnd : (e₁.map Entry.path).Nodup) :
    resolve_conflicts e₁ = resolve_conflicts e₂ := by
  have hs : insSort pathLe e₁ = insSort pathLe e₂ := by
    apply eq_of_perm_of_sorted_nodupKey
      (fun hab hba => strLe_antisymm hab hba)
      ((perm_insSort pathLe e₁).trans (hp.trans (perm_insSort pathLe e₂).symm))
      (pairwise_insSort pathLe_total (fun hab hbc => pathLe_trans hab hbc) _)
      (pairwise_insSort pathLe_total (fun hab hbc => pathLe_trans hab hbc) _)
    exact (((perm_insSort pathLe e₁).map Entry.path).nodup_iff).mpr hnd
  rw [resolve_conflicts_eq, resolve_conflicts_eq, hs]

/-- C9: the manifest value is independent of filesystem traversal order.
Two scans of the unchanged tree (same files, same mtimes) collect the same
entries up to a permutation given by the traversal order, and distinct
directories have pairwise-distinct paths; under those two conditions the
resolver and writer produce equal manifest values whenever the same
`generated_at` timestamp is substituted — and the serialized file
(`json.dumps` with sorted keys plus newline) is a pure function of that
value, so the bytes agree except for `generated_at`. -/
theorem C9_manifest_determinism :
    ∀ (e₁ e₂ : List Entry), List.Perm e₁ e₂ → (e₁.map Entry.path).Nodup →
      ∀ (root ts : String),
        write_manifest root ts (resolve_conflicts e₁).1
            (resolve_conflicts e₁).2
          = write_manifest root ts (resolve_conflicts e₂).1
              (resolve_conflicts e₂).2 := by
  intro e₁ e₂ hp hnd root ts
  rw [resolve_conflicts_perm_invariant hp hnd]

/-- C9, witness: the two traversal orders of the concrete two-entry scan. -/
theorem C9_manifest_determinism_witness :
    List.Perm [eZeta, eAlpha] [eAlpha, eZeta]
  ∧ (([eZeta, eAlpha].map Entry.path).Nodup)
  ∧ write_manifest "/r" "T" (resolve_conflicts [eZeta, eAlpha]).1
        (resolve_conflicts [eZeta, eAlpha]).2
      = write_manifest "/r" "T" (resolve_conflicts [eAlpha, eZeta]).1
          (resolve_conflicts [eAlpha, eZeta]).2 :=
  ⟨List.Perm.swap eAlpha eZeta [], by decide,
    C9_manifest_determinism [eZeta, eAlpha] [eAlpha, eZeta]
      (List.Perm.swap eAlpha eZeta []) (by decide) "/r" "T"⟩

/-! ## Scanner lemmas -/

theorem sizeOf_snd_lt_of_mem {subs : List (String × FSTree)}
    {p : String × FSTree} (h : p ∈ subs) : sizeOf p.2 < sizeOf subs := by
  induction subs with
  | nil => cases h
  | cons q rest ih =>
    rcases List.mem_cons.mp h with heq | htl
    · subst heq
      obtain ⟨n, t⟩ := p
      show sizeOf t < sizeOf ((n, t) :: rest)
      simp only [List.cons.sizeOf_spec, Prod.mk.sizeOf_spec]
      omega
    · have h2 := ih htl
      have h3 : sizeOf rest < sizeOf (q :: rest) := by
        simp only [List.cons.sizeOf_spec]
        omega
      omega

/-- Structural induction over directory trees through their child lists. -/
theorem FSTree.inductionOn (motive : FSTree → Prop)
    (step : ∀ files subs, (∀ p ∈ subs, motive p.2) →
      motive (.dir files subs)) :
    ∀ t, motive t
  | .dir files subs =>
    step files subs (fun p hp =>
      FSTree.inductionOn motive step p.2)
termination_by t => sizeOf t
decreasing_by
  have := sizeOf_snd_lt_of_mem hp
  simp only [FSTree.dir.sizeOf_spec]
  omega

/-- One unfolding step of `scanDir` on a directory node. -/
theorem scanDir_dir (strict : Bool) (curPath : String)
    (files : List FileEntry) (subs : List (String × FSTree)) :
    scanDir strict curPath (.dir files subs) =
      match (if is_repo_root (subs.map Prod.fst) (files.map FileEntry.name)
             then processRepo strict curPath files else .ok ([], [])) with
      | .error e => .error e
      | .ok (les, lws) =>
        match scanChildren strict curPath
            (fun n => !(is_repo_root (subs.map Prod.fst)
                (files.map FileEntry.name)) && !SKIP_DIRS.contains n) subs with
        | .error e => .error e
        | .ok (ces, cws) => .ok (les ++ ces, lws ++ cws) := rfl

/-- One unfolding step of `scanChildren` on a non-empty child list. -/
theorem scanChildren_cons (strict : Bool) (curPath : String)
    (visit : String → Bool) (n : String) (t : FSTree)
    (rest : List (String × FSTree)) :
    scanChildren strict curPath visit ((n, t) :: rest) =
      (if visit n then
        match scanDir strict (curPath ++ "/" ++ n) t with
        | .error e => .error e
        | .ok (es, ws) =>
          match scanChildren strict curPath visit rest with
          | .error e => .error e
          | .ok (res, rws) => .ok (es ++ res, ws ++ rws)
      else scanChildren strict curPath visit rest) := rfl

/-- `scanChildren` with a never-true `visit` predicate scans nothing. -/
theorem scanChildren_of_visit_false (strict : Bool) (curPath : String)
    {visit : String → Bool} (hv : ∀ n, visit n = false) :
    ∀ subs : List (String × FSTree),
      scanChildren strict curPath visit subs = .ok ([], []) := by
  intro subs
  induction subs with
  | nil => rfl
  | cons p rest ih =>
    obtain ⟨n, t⟩ := p
    rw [scanChildren_cons, hv n, if_neg Bool.false_ne_true, ih]

/-- Beneath a recognized repository root the scanner never descends: the
node's result is its local metadata processing alone. -/
theorem scanDir_repo_root (strict : Bool) (curPath : String)
    (files : List FileEntry) (subs : List (String × FSTree))
    (hrepo : is_repo_root (subs.map Prod.fst) (files.map FileEntry.name)
      = true) :
    scanDir strict curPath (.dir files subs)
      = processRepo strict curPath files := by
  rw [scanDir_dir]
  simp only [hrepo, if_true, Bool.not_true, Bool.false_and]
  rw [scanChildren_of_visit_false strict curPath (fun n => rfl) subs]
  cases processRepo strict curPath files with
  | error e => rfl
  | ok pr =>
    obtain ⟨les, lws⟩ := pr
    simp

/-! ## Claim C6 -/

/-- C6: once a directory is recognized as a repository root (a `.git` entry
among its direct children), the scanner does not descend beneath it
regardless of the metadata outcome — its scan result is the local metadata
processing alone, for every child list; in particular a repository root
containing a nested repository root yields exactly one entry, the outer
one (at the outer path). -/
theorem C6_no_descent_into_repos :
    (∀ (strict : Bool) (curPath : String) (files : List FileEntry)
       (subs : List (String × FSTree)),
      is_repo_root (subs.map Prod.fst) (files.map FileEntry.name) = true →
      scanDir strict curPath (.dir files subs)
        = processRepo strict curPath files)
  ∧ scanDir false "/root" exTreeNested
      = .ok ([mkEntry (okDoc "outer") "/root" 1], [])
  ∧ (mkEntry (okDoc "outer") "/root" 1).path = "/root" :=
  ⟨scanDir_repo_root, rfl, rfl⟩

/-- C6, witness: the nested-repository fixture discharges the
repository-root hypothesis. -/
theorem C6_no_descent_into_repos_witness :
    scanDir false "/root"
        (.dir [gitFile, metaFile (okDoc "outer") 1]
          [("inner", .dir [gitFile, metaFile (okDoc "inner") 2] [])])
      = processRepo false "/root" [gitFile, metaFile (okDoc "outer") 1] :=
  C6_no_descent_into_repos.1 false "/root" _ _ rfl

/-! ## Claim C7 -/

/-- `scanChildren` never looks inside a child the `visit` predicate
rejects. -/
theorem scanChildren_skip_irrelevant (strict : Bool) (curPath : String)
    (visit : String → Bool) (post : List (String × FSTree)) (name : String)
    (t1 t2 : FSTree) (hv : visit name = false) :
    ∀ pre : List (String × FSTree),
      scanChildren strict curPath visit (pre ++ (name, t1) :: post)
        = scanChildren strict curPath visit (pre ++ (name, t2) :: post) := by
  intro pre
  induction pre with
  | nil =>
    rw [List.nil_append, List.nil_append, scanChildren_cons, scanChildren_cons,
      hv, if_neg Bool.false_ne_true, if_neg Bool.false_ne_true]
  | cons q rest ih =>
    obtain ⟨qn, qt⟩ := q
    rw [List.cons_append, List.cons_append, scanChildren_cons,
      scanChildren_cons]
    by_cases hq : visit qn = true
    · rw [if_pos hq, if_pos hq]
      cases scanDir strict (curPath ++ "/" ++ qn) qt with
      | error e => rfl
      | ok pr =>
        obtain ⟨es, ws⟩ := pr
        rw [ih]
    · rw [if_neg hq, if_neg hq]
      exact ih

/-- C7: a child directory whose name is in the fixed denylist is removed
from the traversal before descending, regardless of repository-root status:
the scan result does not depend on that child's contents in any way, and a
denylisted directory containing a repository with a valid metadata file
contributes nothing. -/
theorem C7_denylist_pruning :
    (∀ (strict : Bool) (curPath : String) (files : List FileEntry)
       (pre post : List (String × FSTree)) (name : String) (t1 t2 : FSTree),
      name ∈ SKIP_DIRS →
      scanDir strict curPath (.dir files (pre ++ (name, t1) :: post))
        = scanDir strict curPath (.dir files (pre ++ (name, t2) :: post)))
  ∧ scanDir false "/root" exTreeSkip = .ok ([], []) := by
  refine ⟨?_, rfl⟩
  intro strict curPath files pre post name t1 t2 hname
  have hmapeq : ((pre ++ (name, t1) :: post).map Prod.fst)
      = ((pre ++ (name, t2) :: post).map Prod.fst) := by simp
  have hcont : SKIP_DIRS.contains name = true :=
    List.elem_eq_true_of_mem hname
  rw [scanDir_dir, scanDir_dir]
  simp only [hmapeq]
  rw [scanChildren_skip_irrelevant strict curPath _ post name t1 t2
    (by rw [hcont]; simp) pre]

/-- C7, witness: `node_modules` is denylisted, so swapping out the entire
subtree beneath it leaves the scan unchanged. -/
theorem C7_denylist_pruning_witness :
    scanDir false "/r"
        (.dir [] ([] ++ ("node_modules",
          FSTree.dir [gitFile, metaFile (okDoc "hidden") 3] []) :: []))
      = scanDir false "/r"
          (.dir [] ([] ++ ("node_modules", FSTree.dir [] []) :: [])) :=
  C7_denylist_pruning.1 false "/r" [] [] [] "node_modules" _ _
    (by decide)

/-! ## Claim C8 -/

theorem strToList_append (a b : String) :
    (a ++ b).toList = a.toList ++ b.toList := by
  simp [String.toList]

/-- A failed start-with test survives appending, as long as the probe is no
longer than the base. -/
theorem listStarts_append_of_le {p a : List Char} (b : List Char)
    (h : p.length ≤ a.length) :
    listStarts p (a ++ b) = listStarts p a := by
  induction p generalizing a with
  | nil => rfl
  | cons x xs ih =>
    cases a with
    | nil => simp at h
    | cons y ys =>
      simp only [List.cons_append, listStarts, List.append_eq]
      rw [ih (by simpa using h)]

/-- `validate_metadata_manual_any` on an array: the membership tests work
(Python `in` on lists), then `.get` raises. -/
theorem validate_any_arr (xs : List Json) :
    validate_metadata_manual_any (.arr xs) =
      if !(xs.any fun x => match x with | .str s => s == "id" | _ => false)
      then .ok (some "missing required field: id")
      else if !(xs.any fun x => match x with
          | .str s => s == "one_liner" | _ => false)
      then .ok (some "missing required field: one_liner")
      else .error "AttributeError: object has no attribute get" := rfl

/-- `validate_metadata_manual_any` on a string: the membership tests are
substring tests, then `.get` raises. -/
theorem validate_any_str (s : String) :
    validate_metadata_manual_any (.str s) =
      if !(listContainsSub "id".toList s.toList)
      then .ok (some "missing required field: id")
      else if !(listContainsSub "one_liner".toList s.toList)
      then .ok (some "missing required field: one_liner")
      else .error "AttributeError: object has no attribute get" := rfl

/-- A non-`none` result of the unexpected-fields check is the listing
message. -/
theorem unexpectedFieldsCheck_some {data : List (String × Json)} {r : String}
    (h : unexpectedFieldsCheck data = some r) :
    ∃ xs, r = "unexpected fields: " ++ pyStrListRepr xs := by
  simp only [unexpectedFieldsCheck] at h
  split at h
  · exact absurd h (by simp)
  · exact ⟨_, (Option.some.inj h).symm⟩

/-- Every possible failure message of the manual validator. -/
theorem validate_manual_msgs {data : List (String × Json)} {r : String}
    (h : validate_metadata_manual data = some r) :
    r ∈ ["missing required field: id", "missing required field: one_liner",
         "id must be string", idPatternMsg, "one_liner must be string",
         "one_liner exceeds 120 chars", "title must be string",
         "tags must be array of strings", "stack must be array of strings",
         "entrypoints keys and values must be strings",
         "entrypoints must be object"]
    ∨ ∃ xs, r = "unexpected fields: " ++ pyStrListRepr xs := by
  unfold validate_metadata_manual at h
  repeat' split at h
  all_goals first
    | exact .inr (unexpectedFieldsCheck_some h)
    | exact .inl (by rw [← Option.some.inj h]; simp)

/-- No failure message of the validator, on any JSON value, starts with the
loader's `missing: ` marker. -/
theorem validate_any_msg_not_missing {j : Json} {r : String}
    (h : validate_metadata_manual_any j = .ok (some r)) :
    listStarts "missing: ".toList r.toList = false := by
  cases j with
  | obj fields =>
    have h' : validate_metadata_manual fields = some r := by
      simpa [validate_metadata_manual_any] using h
    rcases validate_manual_msgs h' with hm | ⟨xs, hx⟩
    · simp only [List.mem_cons, List.not_mem_nil, or_false] at hm
      rcases hm with h1 | h1 | h1 | h1 | h1 | h1 | h1 | h1 | h1 | h1 | h1 <;>
        rw [h1] <;> decide
    · rw [hx, strToList_append,
        listStarts_append_of_le _ (by decide)]
      decide
  | null =>
    rw [show validate_metadata_manual_any .null
        = .error "TypeError: argument of type is not iterable" from rfl] at h
    exact absurd h (by simp)
  | bool b =>
    rw [show validate_metadata_manual_any (.bool b)
        = .error "TypeError: argument of type is not iterable" from rfl] at h
    exact absurd h (by simp)
  | num n =>
    rw [show validate_metadata_manual_any (.num n)
        = .error "TypeError: argument of type is not iterable" from rfl] at h
    exact absurd h (by simp)
  | arr xs =>
    rw [validate_any_arr] at h
    split at h
    · rw [← Option.some.inj (Except.ok.inj h)]; decide
    · split at h
      · rw [← Option.some.inj (Except.ok.inj h)]; decide
      · exact absurd h (by simp)
  | str s =>
    rw [validate_any_str] at h
    split at h
    · rw [← Option.some.inj (Except.ok.inj h)]; decide
    · split at h
      · rw [← Option.some.inj (Except.ok.inj h)]; decide
      · exact absurd h (by simp)

/-- Warnings recorded at one repository root never carry the loader's
missing-file reason: the presence check precedes the load. -/
theorem processRepo_warning {strict : Bool} {cur : String}
    {files : List FileEntry} {es : List Entry} {ws : List WarningItem}
    (h : processRepo strict cur files = .ok (es, ws)) :
    ∀ w ∈ ws, listStarts "missing: ".toList w.message.toList = false := by
  unfold processRepo at h
  cases hlk : lookupFile files metadataFileName with
  | none =>
    rw [hlk] at h
    have hws : [] = ws := (Prod.mk.inj (Except.ok.inj h)).2
    intro w hw
    rw [← hws] at hw
    exact absurd hw (List.not_mem_nil _)
  | some f =>
    rw [hlk] at h
    have h1 : (match load_json (some f.content)
          (cur ++ "/" ++ metadataFileName) with
        | Except.error err =>
          if strict = true then Except.error (ScanAbort.systemExit err)
          else Except.ok ([],
            [WarningItem.mk (cur ++ "/" ++ metadataFileName) err])
        | Except.ok data =>
          match validate_metadata_schema data with
          | Except.error exc => Except.error (ScanAbort.pyError exc)
          | Except.ok (some verr) =>
            if strict = true then Except.error (ScanAbort.systemExit verr)
            else Except.ok ([],
              [WarningItem.mk (cur ++ "/" ++ metadataFileName) verr])
          | Except.ok none => Except.ok ([mkEntry data cur f.mtime], []))
        = (Except.ok (es, ws)
          : Except ScanAbort (List Entry × List WarningItem)) := h
    clear h
    cases hc : f.content with
    | malformed d =>
      rw [hc] at h1
      cases strict with
      | true =>
        have h2 : (Except.error (ScanAbort.systemExit ("invalid json: " ++ d))
            : Except ScanAbort (List Entry × List WarningItem))
            = .ok (es, ws) := h1
        exact absurd h2 (by simp)
      | false =>
        have h2 : (Except.ok ([],
            [WarningItem.mk (cur ++ "/" ++ metadataFileName)
              ("invalid json: " ++ d)])
            : Except ScanAbort (List Entry × List WarningItem))
            = .ok (es, ws) := h1
        have hws := (Prod.mk.inj (Except.ok.inj h2)).2
        intro w hw
        rw [← hws] at hw
        have hw2 := List.mem_singleton.mp hw
        rw [hw2]
        show listStarts "missing: ".toList
          ("invalid json: " ++ d).toList = false
        rw [strToList_append, listStarts_append_of_le _ (by decide)]
        decide
    | json v =>
      rw [hc] at h1
      have h3 : (match validate_metadata_schema v with
          | Except.error exc => Except.error (ScanAbort.pyError exc)
          | Except.ok (some verr) =>
            if strict = true then Except.error (ScanAbort.systemExit verr)
            else Except.ok ([],
              [WarningItem.mk (cur ++ "/" ++ metadataFileName) verr])
          | Except.ok none =>
            Except.ok ([mkEntry v cur f.mtime], []))
          = (Except.ok (es, ws)
            : Except ScanAbort (List Entry × List WarningItem)) := h1
      cases hv : validate_metadata_schema v with
      | error exc =>
        rw [hv] at h3
        exact absurd h3 (by simp)
      | ok vr =>
        rw [hv] at h3
        cases vr with
        | none =>
          have hws := (Prod.mk.inj (Except.ok.inj h3)).2
          intro w hw
          rw [← hws] at hw
          exact absurd hw (List.not_mem_nil _)
        | some verr =>
          cases strict with
          | true => exact absurd h3 (by simp)
          | false =>
            have hws := (Prod.mk.inj (Except.ok.inj h3)).2
            intro w hw
            rw [← hws] at hw
            have hw2 := List.mem_singleton.mp hw
            rw [hw2]
            exact validate_any_msg_not_missing hv

/-- Lift a per-warning property from subtrees through `scanChildren`. -/
theorem scanChildren_warnings (P : WarningItem → Prop) :
    ∀ (subs : List (String × FSTree)) (strict : Bool) (cur : String)
      (visit : String → Bool) (es : List Entry) (ws : List WarningItem),
      (∀ p ∈ subs, ∀ (strict' : Bool) (cur' : String) es' ws',
        scanDir strict' cur' p.2 = .ok (es', ws') → ∀ w ∈ ws', P w) →
      scanChildren strict cur visit subs = .ok (es, ws) →
      ∀ w ∈ ws, P w := by
  intro subs
  induction subs with
  | nil =>
    intro strict cur visit es ws _ h w hw
    rw [show scanChildren strict cur visit [] = .ok ([], []) from rfl] at h
    rw [← (Prod.mk.inj (Except.ok.inj h)).2] at hw
    exact absurd hw (List.not_mem_nil _)
  | cons p rest ih =>
    intro strict cur visit es ws hsub h w hw
    obtain ⟨n, t⟩ := p
    rw [scanChildren_cons] at h
    by_cases hv : visit n = true
    · rw [if_pos hv] at h
      cases hd : scanDir strict (cur ++ "/" ++ n) t with
      | error e => rw [hd] at h; exact absurd h (by simp)
      | ok pr =>
        obtain ⟨es1, ws1⟩ := pr
        rw [hd] at h
        cases hc : scanChildren strict cur visit rest with
        | error e => rw [hc] at h; exact absurd h (by simp)
        | ok pr2 =>
          obtain ⟨es2, ws2⟩ := pr2
          rw [hc] at h
          rw [← (Prod.mk.inj (Except.ok.inj h)).2] at hw
          rcases List.mem_append.mp hw with hw1 | hw2
          · exact hsub (n, t) (List.mem_cons_self _ _) strict
              (cur ++ "/" ++ n) es1 ws1 hd w hw1
          · exact ih strict cur visit es2 ws2
              (fun q hq => hsub q (List.mem_cons_of_mem _ hq)) hc w hw2
    · rw [if_neg hv] at h
      exact ih strict cur visit es ws
        (fun q hq => hsub q (List.mem_cons_of_mem _ hq)) h w hw

/-- No warning produced by the scan starts with `missing: `. -/
theorem scan_warnings_not_missing :
    ∀ (t : FSTree) (strict : Bool) (curPath : String) (es : List Entry)
      (ws : List WarningItem),
      scanDir strict curPath t = .ok (es, ws) →
      ∀ w ∈ ws, listStarts "missing: ".toList w.message.toList = false := by
  intro t
  induction t using FSTree.inductionOn with
  | step files subs ihsub =>
    intro strict curPath es ws hscan w hw
    rw [scanDir_dir] at hscan
    cases hL : (if is_repo_root (subs.map Prod.fst) (files.map FileEntry.name)
        then processRepo strict curPath files else .ok ([], [])) with
    | error e => rw [hL] at hscan; exact absurd hscan (by simp)
    | ok prl =>
      obtain ⟨les, lws⟩ := prl
      rw [hL] at hscan
      cases hC : scanChildren strict curPath
          (fun n => !(is_repo_root (subs.map Prod.fst)
            (files.map FileEntry.name)) && !SKIP_DIRS.contains n) subs with
      | error e => rw [hC] at hscan; exact absurd hscan (by simp)
      | ok prc =>
        obtain ⟨ces, cws⟩ := prc
        rw [hC] at hscan
        rw [← (Prod.mk.inj (Except.ok.inj hscan)).2] at hw
        rcases List.mem_append.mp hw with hw1 | hw2
        · by_cases hrepo : is_repo_root (subs.map Prod.fst)
              (files.map FileEntry.name) = true
          · rw [if_pos hrepo] at hL
            exact processRepo_warning hL w hw1
          · rw [if_neg hrepo] at hL
            rw [← (Prod.mk.inj (Except.ok.inj hL)).2] at hw1
            exact absurd hw1 (List.not_mem_nil _)
        · exact scanChildren_warnings _ subs strict curPath _ ces cws
            (fun p hp strict' cur' es' ws' hscan' =>
              ihsub p hp strict' cur' es' ws' hscan') hC w hw2

/-- C8: a repository root with no metadata file produces neither an entry
nor a warning; the loader does have a `missing: <path>` failure reason, but
the presence check precedes the load, so no warning from any scan ever
carries it. -/
theorem C8_missing_metadata_silent :
    (∀ (strict : Bool) (curPath : String) (files : List FileEntry)
       (subs : List (String × FSTree)),
      is_repo_root (subs.map Prod.fst) (files.map FileEntry.name) = true →
      lookupFile files metadataFileName = none →
      scanDir strict curPath (.dir files subs) = .ok ([], []))
  ∧ (∀ path, load_json none path = .error ("missing: " ++ path))
  ∧ (∀ (t : FSTree) (strict : Bool) (curPath : String) es ws,
      scanDir strict curPath t = .ok (es, ws) →
      ∀ w ∈ ws, listStarts "missing: ".toList w.message.toList = false) := by
  refine ⟨?_, fun path => rfl, scan_warnings_not_missing⟩
  intro strict curPath files subs hrepo hlook
  rw [scanDir_repo_root strict curPath files subs hrepo]
  unfold processRepo
  rw [hlook]

/-- C8, witness: the metadata-less repository fixture. -/
theorem C8_missing_metadata_silent_witness :
    scanDir false "/root" exTreeNoMeta = .ok ([], [])
  ∧ load_json none "/root/project.metadata.json"
      = .error ("missing: " ++ "/root/project.metadata.json") :=
  ⟨C8_missing_metadata_silent.1 false "/root" [gitFile] [("sub", .dir [] [])]
      rfl rfl,
    C8_missing_metadata_silent.2.1 "/root/project.metadata.json"⟩

/-! ## Claim C2 -/

/-- At one repository root, strict mode agrees with a warning-free
non-strict result, and aborts with exactly the first warning's message
otherwise. -/
theorem processRepo_strict {cur : String} {files : List FileEntry}
    {es : List Entry} {ws : List WarningItem}
    (h : processRepo false cur files = .ok (es, ws)) :
    (ws = [] → processRepo true cur files = .ok (es, ws)) ∧
    (∀ w0 wr, ws = w0 :: wr →
      processRepo true cur files = .error (.systemExit w0.message)) := by
  unfold processRepo at h
  cases hlk : lookupFile files metadataFileName with
  | none =>
    rw [hlk] at h
    obtain ⟨hes, hws⟩ := Prod.mk.inj (Except.ok.inj h)
    have hg : processRepo true cur files = .ok ([], []) := by
      unfold processRepo
      rw [hlk]
    constructor
    · intro _
      rw [hg, ← hes, ← hws]
    · intro w0 wr hcons
      rw [← hws] at hcons
      exact absurd hcons (by simp)
  | some f =>
    rw [hlk] at h
    have h1 : (match load_json (some f.content)
          (cur ++ "/" ++ metadataFileName) with
        | Except.error err =>
          Except.ok ([],
            [WarningItem.mk (cur ++ "/" ++ metadataFileName) err])
        | Except.ok data =>
          match validate_metadata_schema data with
          | Except.error exc => Except.error (ScanAbort.pyError exc)
          | Except.ok (some verr) =>
            Except.ok ([],
              [WarningItem.mk (cur ++ "/" ++ metadataFileName) verr])
          | Except.ok none => Except.ok ([mkEntry data cur f.mtime], []))
        = (Except.ok (es, ws)
          : Except ScanAbort (List Entry × List WarningItem)) := h
    clear h
    have hgoal1 : processRepo true cur files
        = (match load_json (some f.content)
            (cur ++ "/" ++ metadataFileName) with
          | Except.error err => Except.error (ScanAbort.systemExit err)
          | Except.ok data =>
            match validate_metadata_schema data with
            | Except.error exc => Except.error (ScanAbort.pyError exc)
            | Except.ok (some verr) =>
              Except.error (ScanAbort.systemExit verr)
            | Except.ok none => Except.ok ([mkEntry data cur f.mtime], [])) := by
      unfold processRepo
      rw [hlk]
      rfl
    rw [hgoal1]
    cases hld : load_json (some f.content)
        (cur ++ "/" ++ metadataFileName) with
    | error err =>
      rw [hld] at h1
      obtain ⟨hes, hws⟩ := Prod.mk.inj (Except.ok.inj h1)
      constructor
      · intro hnil
        rw [← hws] at hnil
        exact absurd hnil (by simp)
      · intro w0 wr hcons
        rw [← hws] at hcons
        have hw0 : WarningItem.mk (cur ++ "/" ++ metadataFileName) err = w0 :=
          (List.cons.inj hcons).1
        rw [← hw0]
    | ok data =>
      rw [hld] at h1
      have h2 : (match validate_metadata_schema data with
          | Except.error exc => Except.error (ScanAbort.pyError exc)
          | Except.ok (some verr) =>
            Except.ok ([],
              [WarningItem.mk (cur ++ "/" ++ metadataFileName) verr])
          | Except.ok none => Except.ok ([mkEntry data cur f.mtime], []))
          = (Except.ok (es, ws)
            : Except ScanAbort (List Entry × List WarningItem)) := h1
      clear h1
      cases hv : validate_metadata_schema data with
      | error exc =>
        rw [hv] at h2
        exact absurd h2 (by simp)
      | ok vr =>
        rw [hv] at h2
        cases vr with
        | none =>
          obtain ⟨hes, hws⟩ := Prod.mk.inj (Except.ok.inj h2)
          constructor
          · intro _
            rw [← hes, ← hws]
            show (match validate_metadata_schema data with
              | Except.error exc => Except.error (ScanAbort.pyError exc)
              | Except.ok (some verr) =>
                Except.error (ScanAbort.systemExit verr)
              | Except.ok none => Except.ok ([mkEntry data cur f.mtime], []))
              = (Except.ok ([mkEntry data cur f.mtime], [])
                : Except ScanAbort (List Entry × List WarningItem))
            rw [hv]
          · intro w0 wr hcons
            rw [← hws] at hcons
            exact absurd hcons (by simp)
        | some verr =>
          obtain ⟨hes, hws⟩ := Prod.mk.inj (Except.ok.inj h2)
          constructor
          · intro hnil
            rw [← hws] at hnil
            exact absurd hnil (by simp)
          · intro w0 wr hcons
            rw [← hws] at hcons
            have hw0 : WarningItem.mk (cur ++ "/" ++ metadataFileName) verr
                = w0 := (List.cons.inj hcons).1
            rw [← hw0]
            show (match validate_metadata_schema data with
              | Except.error exc => Except.error (ScanAbort.pyError exc)
              | Except.ok (some verr) =>
                Except.error (ScanAbort.systemExit verr)
              | Except.ok none => Except.ok ([mkEntry data cur f.mtime], []))
              = Except.error (ScanAbort.systemExit
                  (WarningItem.mk (cur ++ "/" ++ metadataFileName)
                    verr).message)
            rw [hv]

/-- Strict mode across a child list: agreement when no warning occurred,
abort with the first warning's message otherwise. -/
theorem scanChildren_strict :
    ∀ (subs : List (String × FSTree)) (cur : String) (visit : String → Bool)
      (es : List Entry) (ws : List WarningItem),
      (∀ p ∈ subs, ∀ (cur' : String) (es' : List Entry)
        (ws' : List WarningItem),
        scanDir false cur' p.2 = .ok (es', ws') →
        (ws' = [] → scanDir true cur' p.2 = .ok (es', ws')) ∧
        (∀ w0 wr, ws' = w0 :: wr →
          scanDir true cur' p.2 = .error (.systemExit w0.message))) →
      scanChildren false cur visit subs = .ok (es, ws) →
      (ws = [] → scanChildren true cur visit subs = .ok (es, ws)) ∧
      (∀ w0 wr, ws = w0 :: wr →
        scanChildren true cur visit subs = .error (.systemExit w0.message)) := by
  intro subs
  induction subs with
  | nil =>
    intro cur visit es ws _ h
    obtain ⟨hes, hws⟩ := Prod.mk.inj (Except.ok.inj h)
    constructor
    · intro _
      rw [show scanChildren true cur visit [] = .ok ([], []) from rfl,
        hes, hws]
    · intro w0 wr hcons
      rw [← hws] at hcons
      exact absurd hcons (by simp)
  | cons p rest ih =>
    intro cur visit es ws hsub h
    obtain ⟨n, t⟩ := p
    rw [scanChildren_cons] at h
    rw [scanChildren_cons]
    by_cases hv : visit n = true
    · rw [if_pos hv] at h ⊢
      cases hd : scanDir false (cur ++ "/" ++ n) t with
      | error e => rw [hd] at h; exact absurd h (by simp)
      | ok pr1 =>
        obtain ⟨es1, ws1⟩ := pr1
        rw [hd] at h
        cases hc : scanChildren false cur visit rest with
        | error e => rw [hc] at h; exact absurd h (by simp)
        | ok pr2 =>
          obtain ⟨es2, ws2⟩ := pr2
          rw [hc] at h
          obtain ⟨hes, hws⟩ := Prod.mk.inj (Except.ok.inj h)
          have hS := hsub (n, t) (List.mem_cons_self _ _)
            (cur ++ "/" ++ n) es1 ws1 hd
          have hR := ih cur visit es2 ws2
            (fun q hq => hsub q (List.mem_cons_of_mem _ hq)) hc
          constructor
          · intro hnil
            rw [← hws] at hnil
            obtain ⟨hn1, hn2⟩ := List.append_eq_nil.mp hnil
            rw [hS.1 hn1, hR.1 hn2]
            show (Except.ok (es1 ++ es2, ws1 ++ ws2)
              : Except ScanAbort (List Entry × List WarningItem))
              = Except.ok (es, ws)
            rw [hes, hws]
          · intro w0 wr hcons
            rw [← hws] at hcons
            cases hws1 : ws1 with
            | nil =>
              rw [hS.1 hws1]
              rw [hws1, List.nil_append] at hcons
              rw [hR.2 w0 wr hcons]
            | cons a l =>
              rw [hws1, List.cons_append] at hcons
              have ha : a = w0 := (List.cons.inj hcons).1
              rw [hS.2 a l hws1, ha]
    · rw [if_neg hv] at h ⊢
      exact ih cur visit es ws
        (fun q hq => hsub q (List.mem_cons_of_mem _ hq)) h

/-- Strict mode over a whole tree: if the non-strict scan succeeds with no
warnings, the strict scan agrees; if it records warnings, the strict scan
aborts with a `SystemExit` carrying the first warning's message. -/
theorem scan_strict_of_nonstrict :
    ∀ (t : FSTree) (cur : String) (es : List Entry) (ws : List WarningItem),
      scanDir false cur t = .ok (es, ws) →
      (ws = [] → scanDir true cur t = .ok (es, ws)) ∧
      (∀ w0 wr, ws = w0 :: wr →
        scanDir true cur t = .error (.systemExit w0.message)) := by
  intro t
  induction t using FSTree.inductionOn with
  | step files subs ihsub =>
    intro cur es ws h
    rw [scanDir_dir] at h
    rw [scanDir_dir]
    cases hL : (if is_repo_root (subs.map Prod.fst) (files.map FileEntry.name)
        then processRepo false cur files else .ok ([], [])) with
    | error e => rw [hL] at h; exact absurd h (by simp)
    | ok prl =>
      obtain ⟨les, lws⟩ := prl
      rw [hL] at h
      cases hC : scanChildren false cur
          (fun n => !(is_repo_root (subs.map Prod.fst)
            (files.map FileEntry.name)) && !SKIP_DIRS.contains n) subs with
      | error e => rw [hC] at h; exact absurd h (by simp)
      | ok prc =>
        obtain ⟨ces, cws⟩ := prc
        rw [hC] at h
        obtain ⟨hes, hws⟩ := Prod.mk.inj (Except.ok.inj h)
        have hLs : (lws = [] →
            (if is_repo_root (subs.map Prod.fst) (files.map FileEntry.name)
              then processRepo true cur files else .ok ([], []))
              = .ok (les, lws)) ∧
            (∀ w0 wr, lws = w0 :: wr →
              (if is_repo_root (subs.map Prod.fst)
                  (files.map FileEntry.name)
                then processRepo true cur files else .ok ([], []))
                = .error (.systemExit w0.message)) := by
          by_cases hrepo : is_repo_root (subs.map Prod.fst)
              (files.map FileEntry.name) = true
          · rw [if_pos hrepo] at hL
            rw [if_pos hrepo]
            exact processRepo_strict hL
          · rw [if_neg hrepo] at hL
            rw [if_neg hrepo]
            obtain ⟨hl1, hl2⟩ := Prod.mk.inj (Except.ok.inj hL)
            constructor
            · intro _
              rw [← hl1, ← hl2]
            · intro w0 wr hcons
              rw [← hl2] at hcons
              exact absurd hcons (by simp)
        have hCs := scanChildren_strict subs cur _ ces cws
          (fun p hp cur' es' ws' hd => ihsub p hp cur' es' ws' hd) hC
        constructor
        · intro hnil
          rw [← hws] at hnil
          obtain ⟨hn1, hn2⟩ := List.append_eq_nil.mp hnil
          rw [hLs.1 hn1, hCs.1 hn2]
          show (Except.ok (les ++ ces, lws ++ cws)
            : Except ScanAbort (List Entry × List WarningItem))
            = Except.ok (es, ws)
          rw [hes, hws]
        · intro w0 wr hcons
          rw [← hws] at hcons
          cases hlws : lws with
          | nil =>
            rw [hLs.1 hlws]
            rw [hlws, List.nil_append] at hcons
            rw [hCs.2 w0 wr hcons]
          | cons a l =>
            rw [hlws, List.cons_append] at hcons
            have ha : a = w0 := (List.cons.inj hcons).1
            rw [hLs.2 a l hlws, ha]

/-- C2: over any tree whose non-strict scan completes and records at least
one load/validation warning, the strict run aborts via `SystemExit`
carrying the first warning's message before any manifest value is produced
(exit code 1, the `aborted` outcome holds no manifest), while the
non-strict run writes a manifest built from the successfully validated
entries only, reports the warnings on the diagnostic stream, and exits 0.
At the failing repository itself, the non-strict scan emits the warning and
no entry — the offending repository is omitted — and the strict scan aborts
with exactly that message.  The completion proviso is forced by a code bug:
the final conjunct evaluates the claim's failing input, a tree containing a
repository with a malformed metadata file (which fails to load) plus a
repository whose metadata parses to the bare number `5` — its non-strict
run dies with an uncaught `TypeError` (exit 1, no manifest written),
contradicting the claim's unconditional non-strict half. -/
theorem C2_strict_abort_vs_nonstrict :
    (∀ (t : FSTree) (rootPath ts : String) (es : List Entry)
       (ws : List WarningItem),
      scanDir false rootPath t = .ok (es, ws) → ws ≠ [] →
      (∃ msg, runMain true rootPath t ts = .aborted (.systemExit msg)
        ∧ (ws.map WarningItem.message).head? = some msg)
      ∧ exitCode (runMain true rootPath t ts) = 1
      ∧ runMain false rootPath t ts
          = .completed (write_manifest rootPath ts (resolve_conflicts es).1
              (resolve_conflicts es).2) ws 0
      ∧ exitCode (runMain false rootPath t ts) = 0)
  ∧ (∀ (curPath : String) (files : List FileEntry)
       (subs : List (String × FSTree)) (f : FileEntry) (msg : String),
      is_repo_root (subs.map Prod.fst) (files.map FileEntry.name) = true →
      lookupFile files metadataFileName = some f →
      (load_json (some f.content) (curPath ++ "/" ++ metadataFileName)
          = .error msg
        ∨ ∃ data, load_json (some f.content)
            (curPath ++ "/" ++ metadataFileName) = .ok data
          ∧ validate_metadata_schema data = .ok (some msg)) →
      scanDir false curPath (.dir files subs)
          = .ok ([], [WarningItem.mk (curPath ++ "/" ++ metadataFileName) msg])
        ∧ scanDir true curPath (.dir files subs)
            = .error (.systemExit msg))
  ∧ (load_json (some (FileContent.malformed "Expecting value"))
        "/root/bad/project.metadata.json"
        = .error "invalid json: Expecting value"
    ∧ runMain false "/root" exTreeMixed "TS"
        = .aborted (.pyError "TypeError: argument of type is not iterable")
    ∧ exitCode (runMain false "/root" exTreeMixed "TS") = 1) := by
  refine ⟨?_, ?_, rfl, rfl, rfl⟩
  · intro t rootPath ts es ws hscan hne
    cases hws : ws with
    | nil => exact absurd hws hne
    | cons w0 wr =>
      rw [hws] at hscan
      have hstrict := (scan_strict_of_nonstrict t rootPath es _ hscan).2
        w0 wr rfl
      refine ⟨⟨w0.message, ?_, rfl⟩, ?_, ?_, ?_⟩
      · unfold runMain
        rw [hstrict]
      · unfold exitCode runMain
        rw [hstrict]
      · unfold runMain
        rw [hscan]
      · unfold exitCode runMain
        rw [hscan]
  · intro curPath files subs f msg hrepo hlk hfail
    have hfalse : processRepo false curPath files
        = .ok ([], [WarningItem.mk (curPath ++ "/" ++ metadataFileName) msg]) := by
      unfold processRepo
      rw [hlk]
      show (match load_json (some f.content)
          (curPath ++ "/" ++ metadataFileName) with
        | Except.error err =>
          Except.ok ([],
            [WarningItem.mk (curPath ++ "/" ++ metadataFileName) err])
        | Except.ok data =>
          match validate_metadata_schema data with
          | Except.error exc => Except.error (ScanAbort.pyError exc)
          | Except.ok (some verr) =>
            Except.ok ([],
              [WarningItem.mk (curPath ++ "/" ++ metadataFileName) verr])
          | Except.ok none =>
            Except.ok ([mkEntry data curPath f.mtime], []))
        = Except.ok ([],
            [WarningItem.mk (curPath ++ "/" ++ metadataFileName) msg])
      rcases hfail with hld | ⟨data, hld, hvr⟩
      · rw [hld]
      · rw [hld]
        show (match validate_metadata_schema data with
          | Except.error exc => Except.error (ScanAbort.pyError exc)
          | Except.ok (some verr) =>
            Except.ok ([],
              [WarningItem.mk (curPath ++ "/" ++ metadataFileName) verr])
          | Except.ok none =>
            Except.ok ([mkEntry data curPath f.mtime], []))
          = Except.ok ([],
              [WarningItem.mk (curPath ++ "/" ++ metadataFileName) msg])
        rw [hvr]
    have htrue : processRepo true curPath files
        = .error (.systemExit msg) :=
      (processRepo_strict hfalse).2 _ [] rfl
    exact ⟨by rw [scanDir_repo_root _ _ _ _ hrepo, hfalse],
      by rw [scanDir_repo_root _ _ _ _ hrepo, htrue]⟩

/-- C2, witness: a root holding one repository with a malformed metadata
file and one valid repository. -/
theorem C2_strict_abort_vs_nonstrict_witness :
    scanDir false "/root" exTreeMalformed
        = .ok ([mkEntry (okDoc "proj1") "/root/good" 1],
            [WarningItem.mk "/root/bad/project.metadata.json"
              "invalid json: Expecting value"])
  ∧ ([WarningItem.mk "/root/bad/project.metadata.json"
        "invalid json: Expecting value"] ≠ ([] : List WarningItem))
  ∧ (∃ msg, runMain true "/root" exTreeMalformed "TS"
        = .aborted (.systemExit msg)
      ∧ (([WarningItem.mk "/root/bad/project.metadata.json"
            "invalid json: Expecting value"].map
              WarningItem.message).head? = some msg))
  ∧ exitCode (runMain true "/root" exTreeMalformed "TS") = 1 := by
  have h := (C2_strict_abort_vs_nonstrict.1 exTreeMalformed "/root" "TS"
    [mkEntry (okDoc "proj1") "/root/good" 1]
    [WarningItem.mk "/root/bad/project.metadata.json"
      "invalid json: Expecting value"] rfl (by decide))
  exact ⟨rfl, by decide, h.1, h.2.1⟩

/-! ## Claim C3 -/

/-- C3 (code bug): the per-file failure taxonomy promises that a metadata
file that loads as well-formed JSON but fails validation is recorded as a
warning and is never fatal outside strict mode, including for non-object
top-level values under the manual rule set — but a file whose content is
the bare number `5` makes `validate_metadata_manual` raise an uncaught
`TypeError` (Python `"id" not in 5`): the whole non-strict run dies with a
non-zero exit status and no manifest, instead of recording a warning.
(A top-level array, by contrast, is handled: Python `in` works on lists,
so it yields the missing-required-field warning.) -/
theorem C3_bare_number_crash :
    validate_metadata_manual_any (.num 5)
        = .error "TypeError: argument of type is not iterable"
  ∧ runMain false "/root" exTreeBareNum "TS"
      = .aborted (.pyError "TypeError: argument of type is not iterable")
  ∧ exitCode (runMain false "/root" exTreeBareNum "TS") ≠ 0
  ∧ validate_metadata_manual_any (.arr [.num 1])
      = .ok (some "missing required field: id") :=
  ⟨rfl, rfl, by decide, rfl⟩

end UpdateManifest
